import Mathlib

/-!
# matrix.h: a dense row-major float matrix and its operations

A shallow embedding of `src/matrix.h`.

* A `Matrix` is the C struct passed by value: `rows`, `cols`, `stride` and a
  pointer `elements` into the heap.
* The heap is a list of allocated blocks; a pointer is a block number plus
  one, `0` is `NULL`.  An access outside a block is undefined behaviour and
  is reported as `Fault.undefined`; a failed `MAT_ASSERT` is
  `Fault.assertion`.
* `size_t` arithmetic is arithmetic modulo `2 ^ 64`.
* The element type `float` is a parameter `α` with its own `0`, `1`, `+`
  and `*`.  Most theorems hold whatever the operations are, so for IEEE
  arithmetic with its rounding, infinities and NaN too.  A theorem that needs
  a law of arithmetic says so by a hypothesis: either a law that `float` has
  (`0 + x = x`, `x * 1 = x`), or a condition on the values at hand
  (`v * 0 = 0`, which a finite `float` meets and an infinity or NaN does
  not).  Sums are kept in the order in which the loops add them up.
* `F32` is the arithmetic of `float` on its integer values, the infinities
  and NaN, with rounding to 24 significant bits; the concrete runs that
  depend on rounding or on an infinity are evaluated in it.
-/

namespace MatrixH

/-! ## Machine model -/

/-- How a call can go wrong: a `MAT_ASSERT` that fails, or undefined behaviour. -/
inductive Fault where
  | assertion
  | undefined
  deriving DecidableEq, Repr

/-- Reduction of a natural number to a `size_t` (64 bits). -/
def sizeT (n : Nat) : Nat := n % 2 ^ 64

/-- The heap: the allocated blocks in allocation order, the largest request
`malloc` grants, and the indeterminate contents of fresh memory. -/
structure Heap (α : Type) where
  blocks : List (List α)
  limit : Nat
  junk : Nat → α

/-- The struct `Matrix` of the header (lines 19-24). -/
structure Matrix where
  rows : Nat
  cols : Nat
  stride : Nat
  elements : Nat
  deriving DecidableEq, Repr

variable {α : Type}

/-- The float stored at offset `i` of the block `p` points to, if there is one. -/
def Heap.cell (h : Heap α) (p i : Nat) : Option α :=
  match p with
  | 0 => none
  | q + 1 =>
    match h.blocks[q]? with
    | none => none
    | some b => b[i]?

/-- Reading `p[i]`. -/
def Heap.load (h : Heap α) (p i : Nat) : Except Fault α :=
  match h.cell p i with
  | some v => .ok v
  | none => .error .undefined

/-- Writing `p[i] = v`. -/
def Heap.store (h : Heap α) (p i : Nat) (v : α) : Except Fault (Heap α) :=
  match p with
  | 0 => .error .undefined
  | q + 1 =>
    match h.blocks[q]? with
    | none => .error .undefined
    | some b =>
      if i < b.length then .ok { h with blocks := h.blocks.set q (b.set i v) }
      else .error .undefined

/-- The call `malloc(bytes)`: `NULL` when the request exceeds what the
allocator grants, otherwise a fresh block of `bytes / sizeof(float)` floats
of indeterminate content (for a request of no bytes an empty block, not
`NULL`). -/
def Heap.malloc (h : Heap α) (bytes : Nat) : Nat × Heap α :=
  if bytes ≤ h.limit then
    (h.blocks.length + 1,
      { h with blocks := h.blocks ++ [(List.range (bytes / 4)).map h.junk] })
  else (0, h)

/-- The rest of a counting loop: `k` more rounds of `body`, the counter
standing at `i`; a fault ends the loop. -/
def forFrom {σ : Type} (body : Nat → σ → Except Fault σ) (k i : Nat) (s : σ) :
    Except Fault σ :=
  match k with
  | 0 => .ok s
  | k + 1 => body i s >>= forFrom body k (i + 1)

/-- The loop `for (size_t i = 0; i < n; i++) body`: runs `body 0`, ...,
`body (n-1)` in this order on the state and stops at the first fault. -/
def forN {σ : Type} (n : Nat) (body : Nat → σ → Except Fault σ) (s : σ) : Except Fault σ :=
  forFrom body n 0 s

/-- The offset the macro `MAT_AT(mat, row, col)` addresses (line 27). -/
def MAT_AT (mat : Matrix) (row col : Nat) : Nat :=
  sizeT (sizeT (row * mat.stride) + col)

/-! ## The functions of the header -/

/-- `__alloc__matrix` (lines 58-74). -/
def __alloc__matrix [Zero α] (rows cols : Nat) (h : Heap α) : Except Fault (Matrix × Heap α) :=
  let r := h.malloc (sizeT (sizeT (rows * cols) * 4))
  let mat : Matrix := ⟨rows, cols, cols, r.1⟩
  if mat.elements = 0 then .error .assertion
  else
    (forN mat.rows (fun row =>
      forN mat.cols (fun col s => s.store mat.elements (MAT_AT mat row col) 0)) r.2).map
      (fun h2 => (mat, h2))

/-- `__dot__matrix` (lines 143-157). -/
def __dot__matrix [Zero α] [Add α] [Mul α] (dest a1 a2 : Matrix) (h : Heap α) :
    Except Fault (Heap α) :=
  if a1.cols ≠ a2.rows then .error .assertion
  else
    let n := a1.cols
    if a1.rows ≠ dest.rows then .error .assertion
    else if a2.cols ≠ dest.cols then .error .assertion
    else
      forN dest.rows (fun row =>
        forN dest.cols (fun col s0 => do
          let s1 ← s0.store dest.elements (MAT_AT dest row col) 0
          forN n (fun i s => do
            let x ← s.load a1.elements (MAT_AT a1 row i)
            let y ← s.load a2.elements (MAT_AT a2 i col)
            let d ← s.load dest.elements (MAT_AT dest row col)
            s.store dest.elements (MAT_AT dest row col) (d + x * y)) s1)) h

/-- `__init__matrix` (lines 76-84).  The argument `elements` is a pointer;
`0` is `NULL`. -/
def __init__matrix [Zero α] (rows cols elements : Nat) (h : Heap α) :
    Except Fault (Matrix × Heap α) := do
  let r ← __alloc__matrix rows cols h
  let mat := r.1
  if elements ≠ 0 then
    let h2 ← forN (sizeT (rows * cols)) (fun i s => do
      let v ← s.load elements i
      s.store mat.elements i v) r.2
    pure (mat, h2)
  else pure (mat, r.2)

/-- The process-wide generator behind `rand()`: the values it is going to
return, in order, and how many of them have been drawn so far. -/
structure Rand where
  draws : Nat → Nat
  used : Nat

/-- The call `rand()`: the next value, and the generator after the draw. -/
def Rand.next (g : Rand) : Nat × Rand :=
  (g.draws g.used, { g with used := g.used + 1 })

/-- `_random_float_` (lines 54-56): `(float) rand() / (float) RAND_MAX`.  The
constant `RAND_MAX` of `<stdlib.h>` is a parameter. -/
def _random_float_ [NatCast α] [Div α] (RAND_MAX : Nat) (g : Rand) : α × Rand :=
  let r := g.next
  ((r.1 : α) / (RAND_MAX : α), r.2)

/-- `__init__random__matrix` (lines 86-94). -/
def __init__random__matrix [Zero α] [NatCast α] [Div α] (RAND_MAX rows cols : Nat) (g : Rand)
    (h : Heap α) : Except Fault (Matrix × Rand × Heap α) := do
  let r ← __alloc__matrix rows cols h
  let mat := r.1
  let st ← forN mat.rows (fun row =>
    forN mat.cols (fun col (st : Rand × Heap α) => do
      let v : α × Rand := _random_float_ RAND_MAX st.1
      let s ← st.2.store mat.elements (MAT_AT mat row col) v.1
      pure (v.2, s))) (g, r.2)
  pure (mat, st.1, st.2)

/-- `__identity__matrix` (lines 96-102). -/
def __identity__matrix [Zero α] [One α] (size : Nat) (h : Heap α) :
    Except Fault (Matrix × Heap α) := do
  let r ← __alloc__matrix size size h
  let mat := r.1
  let h2 ← forN size (fun i s => s.store mat.elements (MAT_AT mat i i) 1) r.2
  pure (mat, h2)

/-- The difference `a - b` of two `size_t`, which wraps when `b > a`. -/
def subT (a b : Nat) : Nat := (a + (2 ^ 64 - b % 2 ^ 64)) % 2 ^ 64

/-- `__convolution__matrix` (lines 104-121). -/
def __convolution__matrix [Zero α] [Add α] [Mul α] (A B : Matrix) (h : Heap α) :
    Except Fault (Matrix × Heap α) := do
  let rowC := sizeT (subT A.rows B.rows + 1)
  let colC := sizeT (subT A.cols B.cols + 1)
  let r ← __alloc__matrix rowC colC h
  let C := r.1
  let h2 ← forN rowC (fun row =>
    forN colC (fun col s => do
      let sum ← forN B.rows (fun i =>
        forN B.cols (fun j (acc : α) => do
          let x ← s.load A.elements (MAT_AT A (sizeT (row + i)) (sizeT (col + j)))
          let y ← s.load B.elements (MAT_AT B i j)
          pure (acc + x * y))) 0
      s.store C.elements (MAT_AT C row col) sum)) r.2
  pure (C, h2)

/-- `__sum__matrix` (lines 135-141). -/
def __sum__matrix [Add α] (dest mat : Matrix) (h : Heap α) : Except Fault (Heap α) :=
  forN mat.rows (fun row =>
    forN mat.cols (fun col s => do
      let d ← s.load dest.elements (MAT_AT dest row col)
      let m ← s.load mat.elements (MAT_AT mat row col)
      s.store dest.elements (MAT_AT dest row col) (d + m))) h

/-- The locals of `__multiply__matrix`: `a0` and `dest` start out
uninitialised (`none`). -/
structure MulState (α : Type) where
  a0 : Option Matrix
  dest : Option Matrix
  heap : Heap α

/-- The body of the loop of `__multiply__matrix` (lines 167-174) at index
`i`.  The variadic arguments are the list `args`; taking a `va_arg` past its
end is undefined behaviour. -/
def multiplyStep [Zero α] [Add α] [Mul α] (args : List Matrix) (i : Nat) (st : MulState α) :
    Except Fault (MulState α) :=
  match args[i]? with
  | none => .error .undefined
  | some a1 =>
    if i = 0 then .ok { st with a0 := some a1 }
    else
      match st.a0 with
      | none => .error .undefined
      | some a0 =>
        if a0.cols ≠ a1.rows then .error .assertion
        else do
          let r ← __alloc__matrix a0.rows a1.cols st.heap
          let dest := r.1
          let h2 ← __dot__matrix dest a0 a1 r.2
          pure { a0 := some dest, dest := some dest, heap := h2 }

/-- `__multiply__matrix` (lines 159-179).  The `int num_args` is converted to
`size_t` for the comparison with `i`; returning the uninitialised `dest` is
undefined behaviour. -/
def __multiply__matrix [Zero α] [Add α] [Mul α] (num_args : Int) (args : List Matrix)
    (h : Heap α) : Except Fault (Matrix × Heap α) := do
  let st ← forN (num_args % 2 ^ 64).toNat (multiplyStep args) ⟨none, none, h⟩
  match st.dest with
  | none => .error .undefined
  | some dest => pure (dest, st.heap)

/-- `__copy__matrix` (lines 181-190). -/
def __copy__matrix (dest src : Matrix) (h : Heap α) : Except Fault (Heap α) :=
  if dest.rows ≠ src.rows then .error .assertion
  else if dest.cols ≠ src.cols then .error .assertion
  else
    forN dest.rows (fun row =>
      forN dest.cols (fun col s => do
        let v ← s.load src.elements (MAT_AT src row col)
        s.store dest.elements (MAT_AT dest row col) v)) h

/-- `__scalar__multiply` (lines 208-214). -/
def __scalar__multiply [Mul α] (mat : Matrix) (x : α) (h : Heap α) : Except Fault (Heap α) :=
  forN mat.rows (fun row =>
    forN mat.cols (fun col s => do
      let v ← s.load mat.elements (MAT_AT mat row col)
      s.store mat.elements (MAT_AT mat row col) (v * x))) h

/-! ## Specification vocabulary -/

/-- What `MAT_AT(mat, row, col)` denotes in the heap `h`, if it is inside the block. -/
def Heap.elem (h : Heap α) (mat : Matrix) (row col : Nat) : Option α :=
  h.cell mat.elements (MAT_AT mat row col)

/-- The matrix `mat` holds the values `A` in `h`: for every position of its
shape, `MAT_AT(mat, r, c)` is `A r c`. -/
def Matrix.Holds (mat : Matrix) (h : Heap α) (A : Nat → Nat → α) : Prop :=
  ∀ r, r < mat.rows → ∀ c, c < mat.cols → h.elem mat r c = some (A r c)

/-- The matrix `mat` is laid out properly in `h`: rows do not overlap
(`stride >= cols`), offsets do not wrap, every position is inside the block. -/
def Matrix.Writable (mat : Matrix) (h : Heap α) : Prop :=
  mat.cols ≤ mat.stride ∧ mat.rows * mat.stride < 2 ^ 64 ∧
    ∀ r, r < mat.rows → ∀ c, c < mat.cols → (h.elem mat r c).isSome

/-- The parts of the heap a store leaves alone: the allocator's limit, the
contents of fresh memory and the number of blocks. -/
def Heap.SameMeta (h s : Heap α) : Prop :=
  s.limit = h.limit ∧ s.junk = h.junk ∧ s.blocks.length = h.blocks.length

/-- The float sum `((0 + f 0) + f 1) + ... + f (n-1)`, added up from the
left in this order, as an accumulating loop computes it. -/
def sumTo [Zero α] [Add α] (n : Nat) (f : Nat → α) : α :=
  match n with
  | 0 => 0
  | k + 1 => sumTo k f + f k

/-- While the two loops over `dest` are at `(r, c)`: the state `s` agrees
with the heap `h` at loop entry on every cell except those of the positions
of `dest` already visited. -/
def Heap.AgreeBefore (h s : Heap α) (dest : Matrix) (r c : Nat) : Prop :=
  ∀ p j, (p = dest.elements → ∀ r' c', c' < dest.cols → (r' < r ∨ (r' = r ∧ c' < c)) →
    j ≠ r' * dest.stride + c') → s.cell p j = h.cell p j

/-- A request for a `rows x cols` buffer of floats is granted: its size in
bytes fits a `size_t` and is within what `malloc` hands out. -/
def Heap.Grants (h : Heap α) (rows cols : Nat) : Prop :=
  rows * cols * 4 < 2 ^ 64 ∧ rows * cols * 4 ≤ h.limit

/-- The accumulator after adding `f 0`, ..., `f (n-1)` to `init`, in this order. -/
def accTo [Add α] (n : Nat) (f : Nat → α) (init : α) : α :=
  match n with
  | 0 => init
  | k + 1 => accTo k f init + f k

/-- The float sum of `f i j` over `i < rows`, `j < cols`, accumulated from
`0` in row-major order in a single accumulator. -/
def sum2 [Zero α] [Add α] (rows cols : Nat) (f : Nat → Nat → α) : α :=
  match rows with
  | 0 => 0
  | k + 1 => accTo cols (f k) (sum2 k cols f)

/-- The product of the values `A` (with `n` columns) and `B` (with `n` rows):
entry `(i, j)` is the sum over `k < n` of `A i k * B k j`. -/
def matMul [Zero α] [Add α] [Mul α] (n : Nat) (A B : Nat → Nat → α) : Nat → Nat → α :=
  fun i j => sumTo n (fun k => A i k * B k j)

/-- The heap `h'` extends `h`: the allocator is the same, and every block
of `h` is still there with its contents. -/
def Heap.Extends (h h' : Heap α) : Prop :=
  h'.limit = h.limit ∧ h'.junk = h.junk ∧ h.blocks.length ≤ h'.blocks.length ∧
    ∀ p j, p ≤ h.blocks.length → h'.cell p j = h.cell p j

/-- The matrix `mat` lives in a block of `h` and holds the values `A` there. -/
def Matrix.Stored (mat : Matrix) (h : Heap α) (A : Nat → Nat → α) : Prop :=
  mat.elements ≤ h.blocks.length ∧ mat.Holds h A

/-- One step of a chained product as the specification words it: the dot
product of `a0` and `a1`, computed into a freshly allocated destination of
shape `a0.rows x a1.cols`, which is the result. -/
def dotFresh [Zero α] [Add α] [Mul α] (a0 a1 : Matrix) (h : Heap α) :
    Except Fault (Matrix × Heap α) := do
  let r ← __alloc__matrix a0.rows a1.cols h
  let h2 ← __dot__matrix r.1 a0 a1 r.2
  pure (r.1, h2)

/-- The left-to-right fold `((m0 . m1) . m2) ... . mn` of `dotFresh`. -/
def chainFold [Zero α] [Add α] [Mul α] (m0 : Matrix) (rest : List Matrix) (h : Heap α) :
    Except Fault (Matrix × Heap α) :=
  rest.foldlM (fun r m => dotFresh r.1 m r.2) (m0, h)

/-- The values of the left-to-right product of `A` (with `n` columns) with
the matrices of `rest`, each given with its values. -/
def chainVal [Zero α] [Add α] [Mul α] (n : Nat) (A : Nat → Nat → α)
    (rest : List (Matrix × (Nat → Nat → α))) : Nat → Nat → α :=
  match rest with
  | [] => A
  | x :: xs => chainVal x.1.cols (matMul n A x.2) xs

/-- Adjacent shapes fit: a left operand with `n` columns meets a matrix with
`n` rows, whose columns then meet the next matrix, and so on. -/
def Compatible (n : Nat) (rest : List Matrix) : Prop :=
  match rest with
  | [] => True
  | m :: ms => n = m.rows ∧ Compatible m.cols ms

/-- The number of columns of the last matrix of `rest`, or `n` if there is none. -/
def lastCols (n : Nat) (rest : List Matrix) : Nat :=
  match rest with
  | [] => n
  | m :: ms => lastCols m.cols ms

/-! ## The arithmetic of `float` on integers, infinities and NaN -/

/-- The values of a C `float` (IEEE binary32) that sums and products of
integers can take: the integers that a `float` represents, the two
infinities (`neg` is the sign bit) and NaN.  The two zeros `+0` and `-0`,
which compare equal, are one value. -/
inductive F32 where
  | fin (n : Int)
  | inf (neg : Bool)
  | nan
  deriving DecidableEq, Repr

/-- By how many bits `a` is longer than the 24 bits of a `float` significand:
`0` when `a < 2 ^ 24`, else one more than for `a / 2`.  The first argument
bounds the number of halvings; `a` itself is more than enough. -/
def F32.excess : Nat → Nat → Nat
  | 0, _ => 0
  | f + 1, a => if a < 2 ^ 24 then 0 else F32.excess f (a / 2) + 1

/-- Rounding of an integer to `float`, to nearest with ties to even: the low
`e` bits beyond the 24 of the significand are dropped and the significand is
rounded up when they are more than half a unit, or exactly half and the
significand is odd; a result of `2 ^ 128` or more is an infinity. -/
def F32.round (n : Int) : F32 :=
  let a := n.natAbs
  let e := F32.excess a a
  let q := a / 2 ^ e
  let r := a % 2 ^ e
  let q' := if 2 ^ e < 2 * r ∨ (2 * r = 2 ^ e ∧ q % 2 = 1) then q + 1 else q
  if 2 ^ 128 ≤ q' * 2 ^ e then .inf (decide (n < 0))
  else .fin (if n < 0 then -((q' * 2 ^ e : Nat) : Int) else ((q' * 2 ^ e : Nat) : Int))

/-- The sum of two `float`s: NaN is contagious, infinities of opposite sign
add up to NaN, and a finite sum is rounded. -/
def F32.add : F32 → F32 → F32
  | .nan, _ => .nan
  | _, .nan => .nan
  | .inf s, .inf t => if s = t then .inf s else .nan
  | .inf s, .fin _ => .inf s
  | .fin _, .inf t => .inf t
  | .fin a, .fin b => F32.round (a + b)

/-- The product of two `float`s: NaN is contagious, an infinity times zero
is NaN, the sign of an infinite product is the product of the signs, and a
finite product is rounded. -/
def F32.mul : F32 → F32 → F32
  | .nan, _ => .nan
  | _, .nan => .nan
  | .inf s, .inf t => .inf (s != t)
  | .inf s, .fin b => if b = 0 then .nan else .inf (s != decide (b < 0))
  | .fin a, .inf t => if a = 0 then .nan else .inf (decide (a < 0) != t)
  | .fin a, .fin b => F32.round (a * b)

instance : Zero F32 := ⟨.fin 0⟩

instance : One F32 := ⟨.fin 1⟩

instance : Add F32 := ⟨F32.add⟩

instance : Mul F32 := ⟨F32.mul⟩

/-! ## Concrete heaps used to exercise the theorems -/

/-- A heap with three blocks: `[[1,2],[3,4]]`, `[[5,6],[7,8]]` and a third
buffer of four floats holding leftovers. -/
def heap3 : Heap Int := ⟨[[1, 2, 3, 4], [5, 6, 7, 8], [9, 9, 9, 9]], 2 ^ 32, fun _ => 7⟩

/-- The `2 x 2` matrix whose buffer is block `p`. -/
def sq2 (p : Nat) : Matrix := ⟨2, 2, 2, p⟩

/-- A heap with one block, the matrix `[[1,1],[1,1]]`. -/
def heapOnes : Heap Int := ⟨[[1, 1, 1, 1]], 2 ^ 32, fun _ => 7⟩

/-- The input `[[1,2,3],[4,5,6],[7,8,9]]` and the kernel `[[1,0],[0,0]]`. -/
def heapConv : Heap Int := ⟨[[1, 2, 3, 4, 5, 6, 7, 8, 9], [1, 0, 0, 0]], 2 ^ 32, fun _ => 7⟩

/-- The matrix `[[1,2],[3,4]]` and the `1 x 1` kernel `[[3]]`. -/
def heapK : Heap Int := ⟨[[1, 2, 3, 4], [3]], 2 ^ 32, fun _ => 7⟩

/-- A heap with the matrix `[[1,2],[3,4]]` alone. -/
def heapA : Heap Int := ⟨[[1, 2, 3, 4]], 2 ^ 32, fun _ => 7⟩

/-- A `3 x 3` input with an infinite entry at `(0, 1)`, and the kernel `[[1,0],[0,0]]`. -/
def heapInfConv : Heap F32 :=
  ⟨[[.fin 1, .inf false, .fin 3, .fin 4, .fin 5, .fin 6, .fin 7, .fin 8, .fin 9],
    [.fin 1, .fin 0, .fin 0, .fin 0]], 2 ^ 32, fun _ => .nan⟩

/-- The matrix `[[inf, 1], [1, 1]]`. -/
def heapInf : Heap F32 := ⟨[[.inf false, .fin 1, .fin 1, .fin 1]], 2 ^ 32, fun _ => .nan⟩

/-- An empty heap of rationals, and a generator whose every draw is `RAND_MAX = 32767`. -/
def heapQ : Heap ℚ := ⟨[], 2 ^ 32, fun _ => 0⟩

def randTop : Rand := ⟨fun _ => 32767, 0⟩

/-- A generator that draws `0, 1, 2, 3, 0, 1, ...`. -/
def randCycle : Rand := ⟨fun i => i % 4, 0⟩

/-- The values of a row-major buffer `l` read with `cols` columns. -/
def rowMajor (cols : Nat) (l : List Int) : Nat → Nat → Int := fun r c => l.getD (r * cols + c) 0

/-! ## Basic facts about the machine model -/

theorem sizeT_of_lt {n : Nat} (hn : n < 2 ^ 64) : sizeT n = n :=
  Nat.mod_eq_of_lt hn

theorem Heap.load_of_cell {h : Heap α} {p i : Nat} {v : α} (hc : h.cell p i = some v) :
    h.load p i = .ok v := by
  simp [Heap.load, hc]

theorem Heap.store_spec (h : Heap α) (p i : Nat) (v : α) (hc : (h.cell p i).isSome) :
    ∃ s, h.store p i v = .ok s ∧ h.SameMeta s ∧ s.cell p i = some v ∧
      (∀ q j, (q = p → j ≠ i) → s.cell q j = h.cell q j) := by
  cases p with
  | zero => simp [Heap.cell] at hc
  | succ q =>
    simp only [Heap.cell] at hc
    cases hb : h.blocks[q]? with
    | none => simp [hb] at hc
    | some b =>
      simp only [hb] at hc
      have hi : i < b.length := by
        rcases Option.isSome_iff_exists.1 hc with ⟨x, hx⟩
        exact (List.getElem?_eq_some.1 hx).1
      have hq : q < h.blocks.length := (List.getElem?_eq_some.1 hb).1
      refine ⟨{ h with blocks := h.blocks.set q (b.set i v) },
        by simp [Heap.store, hb, hi], ⟨rfl, rfl, by simp⟩, ?_, ?_⟩
      · simp [Heap.cell, hq, hi]
      · intro q' j hne
        cases q' with
        | zero => simp [Heap.cell]
        | succ r =>
          simp only [Heap.cell]
          by_cases hr : r = q
          · subst hr
            have hji : j ≠ i := hne rfl
            simp [hq, hb, List.getElem?_set, Ne.symm hji]
          · simp [List.getElem?_set, Ne.symm hr]

theorem Heap.sameMeta_refl (h : Heap α) : h.SameMeta h := ⟨rfl, rfl, rfl⟩

theorem Heap.SameMeta.andThen {h s t : Heap α} (a : h.SameMeta s) (b : s.SameMeta t) :
    h.SameMeta t :=
  ⟨b.1.trans a.1, b.2.1.trans a.2.1, b.2.2.trans a.2.2⟩

theorem forFrom_snoc {σ : Type} (body : Nat → σ → Except Fault σ) (k : Nat) :
    ∀ (i : Nat) (s : σ), forFrom body (k + 1) i s = forFrom body k i s >>= body (i + k) := by
  induction k with
  | zero =>
    intro i s
    show body i s >>= forFrom body 0 (i + 1) = body i s
    cases body i s <;> rfl
  | succ k ih =>
    intro i s
    show body i s >>= forFrom body (k + 1) (i + 1) =
      (body i s >>= forFrom body k (i + 1)) >>= body (i + (k + 1))
    cases body i s with
    | error e => rfl
    | ok t =>
      show forFrom body (k + 1) (i + 1) t = forFrom body k (i + 1) t >>= body (i + (k + 1))
      rw [ih (i + 1) t, Nat.add_assoc, Nat.add_comm 1 k]

theorem forN_zero {σ : Type} (body : Nat → σ → Except Fault σ) (s : σ) :
    forN 0 body s = .ok s := rfl

/-- The first `n + 1` rounds of a loop are its first `n` rounds followed by round `n`. -/
theorem forN_succ {σ : Type} (n : Nat) (body : Nat → σ → Except Fault σ) (s : σ) :
    forN (n + 1) body s = forN n body s >>= body n := by
  unfold forN
  rw [forFrom_snoc, Nat.zero_add]

theorem forN_succ_of_ok {σ : Type} {n : Nat} {body : Nat → σ → Except Fault σ} {s s1 : σ}
    (h : forN n body s = .ok s1) : forN (n + 1) body s = body n s1 := by
  rw [forN_succ, h]
  rfl

/-- A loop whose iteration `i` writes the cells `W i` of block `D` only, and
whose iterations write disjoint cells: afterwards the cells `W i` hold what
iteration `i` left there and every other cell of the heap is unchanged. -/
theorem forN_writes (h : Heap α) (D n : Nat) (body : Nat → Heap α → Except Fault (Heap α))
    (W : Nat → Nat → Prop) (T : Nat → Nat → Option α)
    (hdisj : ∀ i i' j, i < i' → i' < n → W i j → ¬ W i' j)
    (hbody : ∀ i, i < n → ∀ s : Heap α, h.SameMeta s →
      (∀ p j, (p = D → ∀ i', i' < i → ¬ W i' j) → s.cell p j = h.cell p j) →
      ∃ s', body i s = .ok s' ∧ s.SameMeta s' ∧ (∀ j, W i j → s'.cell D j = T i j) ∧
        (∀ p j, (p = D → ¬ W i j) → s'.cell p j = s.cell p j)) :
    ∃ h', forN n body h = .ok h' ∧ h.SameMeta h' ∧
      (∀ i, i < n → ∀ j, W i j → h'.cell D j = T i j) ∧
      (∀ p j, (p = D → ∀ i, i < n → ¬ W i j) → h'.cell p j = h.cell p j) := by
  induction n with
  | zero => exact ⟨h, rfl, Heap.sameMeta_refl h, by intro i hi; omega, fun _ _ _ => rfl⟩
  | succ n ih =>
    obtain ⟨s, hs, hmeta, hval, hframe⟩ := ih
      (fun i i' j hlt hi' => hdisj i i' j hlt (by omega))
      (fun i hi => hbody i (by omega))
    obtain ⟨s', hs', hmeta', hval', hframe'⟩ := hbody n (by omega) s hmeta hframe
    refine ⟨s', by rw [forN_succ_of_ok hs]; exact hs', hmeta.andThen hmeta', ?_, ?_⟩
    · intro i hi j hW
      by_cases hin : i = n
      · subst hin; exact hval' j hW
      · have hlt : i < n := by omega
        rw [hframe' D j (fun _ => hdisj i n j hlt (by omega) hW)]
        exact hval i hlt j hW
    · intro p j hp
      rw [hframe' p j (fun hpD => hp hpD n (by omega))]
      exact hframe p j (fun hpD i hi => hp hpD i (by omega))

/-- Two nested loops over `rows` and `cols` whose body at `(r, c)` writes
the cell `r * stride + c` of block `D` only: afterwards these cells hold
what the body left there, and the rest of the heap is unchanged.  The body
may rely on the cells it has not yet visited being as they were. -/
theorem fill2 (h : Heap α) (D stride rows cols : Nat) (hcs : cols ≤ stride)
    (body : Nat → Nat → Heap α → Except Fault (Heap α)) (V : Nat → Nat → α)
    (hbody : ∀ r, r < rows → ∀ c, c < cols → ∀ s : Heap α, h.SameMeta s →
      (∀ p j, (p = D → ∀ r' c', c' < cols → (r' < r ∨ (r' = r ∧ c' < c)) →
        j ≠ r' * stride + c') → s.cell p j = h.cell p j) →
      ∃ s', body r c s = .ok s' ∧ s.SameMeta s' ∧
        s'.cell D (r * stride + c) = some (V r c) ∧
        (∀ p j, (p = D → j ≠ r * stride + c) → s'.cell p j = s.cell p j)) :
    ∃ h', forN rows (fun r => forN cols (body r)) h = .ok h' ∧ h.SameMeta h' ∧
      (∀ r, r < rows → ∀ c, c < cols → h'.cell D (r * stride + c) = some (V r c)) ∧
      (∀ p j, (p = D → ∀ r, r < rows → ∀ c, c < cols → j ≠ r * stride + c) →
        h'.cell p j = h.cell p j) := by
  obtain ⟨h', hrun, hmeta, hval, hframe⟩ := forN_writes h D rows
    (fun r => forN cols (body r))
    (fun r j => ∃ c, c < cols ∧ j = r * stride + c)
    (fun r j => some (V r (j - r * stride)))
    (by
      rintro r r' j hlt - ⟨c, hc, rfl⟩ ⟨c', -, hj⟩
      have h1 : (r + 1) * stride ≤ r' * stride := Nat.mul_le_mul_right _ hlt
      rw [Nat.add_mul, Nat.one_mul] at h1
      omega)
    (by
      intro r hr s hms hs
      obtain ⟨s', hrun', hmeta', hval', hframe'⟩ := forN_writes s D cols (body r)
        (fun c j => j = r * stride + c) (fun c _ => some (V r c))
        (by intro c c' j hlt _ hj hj'; omega)
        (by
          intro c hc s2 hms2 hs2
          obtain ⟨s3, h3, hm3, hv3, hf3⟩ := hbody r hr c hc s2 (hms.andThen hms2) (by
            intro p j hpj
            rw [hs2 p j (fun hp c' hc' => hpj hp r c' (by omega) (Or.inr ⟨rfl, hc'⟩))]
            exact hs p j (fun hp r' hr' ⟨c', hc', hj⟩ => hpj hp r' c' hc' (Or.inl hr') hj))
          exact ⟨s3, h3, hm3, fun j hj => by rw [hj]; exact hv3, hf3⟩)
      refine ⟨s', hrun', hmeta', ?_, ?_⟩
      · rintro j ⟨c, hc, rfl⟩
        rw [hval' c hc _ rfl]
        simp only [Nat.add_sub_cancel_left]
      · intro p j hpj
        exact hframe' p j (fun hp c hc hj => hpj hp ⟨c, hc, hj⟩))
  refine ⟨h', hrun, hmeta, ?_, ?_⟩
  · intro r hr c hc
    rw [hval r hr _ ⟨c, hc, rfl⟩]
    simp only [Nat.add_sub_cancel_left]
  · intro p j hpj
    exact hframe p j (fun hp r hr ⟨c, hc, hj⟩ => hpj hp r hr c hc hj)

theorem forN_inv {σ : Type} (P : Nat → σ → Prop) (n : Nat) (body : Nat → σ → Except Fault σ)
    (s : σ) (h0 : P 0 s)
    (hstep : ∀ i, i < n → ∀ t, P i t → ∃ t', body i t = .ok t' ∧ P (i + 1) t') :
    ∃ t, forN n body s = .ok t ∧ P n t := by
  induction n with
  | zero => exact ⟨s, rfl, h0⟩
  | succ n ih =>
    obtain ⟨t, ht, hP⟩ := ih (fun i hi => hstep i (by omega))
    obtain ⟨t', ht', hP'⟩ := hstep n (by omega) t hP
    exact ⟨t', by rw [forN_succ_of_ok ht]; exact ht', hP'⟩

theorem MAT_AT_eq {mat : Matrix} (hcs : mat.cols ≤ mat.stride)
    (hsz : mat.rows * mat.stride < 2 ^ 64) {r c : Nat} (hr : r < mat.rows) (hc : c < mat.cols) :
    MAT_AT mat r c = r * mat.stride + c := by
  have h1 : (r + 1) * mat.stride ≤ mat.rows * mat.stride := Nat.mul_le_mul_right _ hr
  rw [Nat.add_mul, Nat.one_mul] at h1
  have h2 : sizeT (r * mat.stride) = r * mat.stride := sizeT_of_lt (by omega)
  unfold MAT_AT
  rw [h2, sizeT_of_lt (by omega)]

/-- Distinct positions of a matrix with `cols <= stride` have distinct offsets. -/
theorem offset_ne {stride cols r c r' c' : Nat} (hcs : cols ≤ stride) (hc' : c' < cols) (hlt : r' < r ∨ (r' = r ∧ c' < c)) :
    r * stride + c ≠ r' * stride + c' := by
  rcases hlt with hlt | ⟨rfl, hlt⟩
  · have h1 : (r' + 1) * stride ≤ r * stride := Nat.mul_le_mul_right _ hlt
    rw [Nat.add_mul, Nat.one_mul] at h1
    omega
  · omega

theorem Matrix.Writable.cell_isSome {mat : Matrix} {h : Heap α} (hw : mat.Writable h) {r c : Nat}
    (hr : r < mat.rows) (hc : c < mat.cols) :
    (h.cell mat.elements (r * mat.stride + c)).isSome := by
  have := hw.2.2 r hr c hc
  rwa [Heap.elem, MAT_AT_eq hw.1 hw.2.1 hr hc] at this

theorem offset_inj {stride r c r' c' : Nat} (hc : c < stride) (hc' : c' < stride)
    (he : r * stride + c = r' * stride + c') : r = r' ∧ c = c' := by
  rcases Nat.lt_trichotomy r r' with hlt | heq | hgt
  · exact absurd he.symm (offset_ne (Nat.le_refl _) hc (Or.inl hlt))
  · subst heq; exact ⟨rfl, by omega⟩
  · exact absurd he (offset_ne (Nat.le_refl _) hc' (Or.inl hgt))

theorem Matrix.Holds.cell_eq {mat : Matrix} {h : Heap α} {A : Nat → Nat → α} (hA : mat.Holds h A)
    (hcs : mat.cols ≤ mat.stride) (hsz : mat.rows * mat.stride < 2 ^ 64) {r c : Nat}
    (hr : r < mat.rows) (hc : c < mat.cols) :
    h.cell mat.elements (r * mat.stride + c) = some (A r c) := by
  have := hA r hr c hc
  rwa [Heap.elem, MAT_AT_eq hcs hsz hr hc] at this

theorem Heap.AgreeBefore.other {h s : Heap α} {dest : Matrix} {r c : Nat}
    (ha : h.AgreeBefore s dest r c) {p : Nat} (hp : p ≠ dest.elements) (j : Nat) :
    s.cell p j = h.cell p j :=
  ha p j (fun e => absurd e hp)

theorem Heap.AgreeBefore.current {h s : Heap α} {dest : Matrix} {r c : Nat}
    (ha : h.AgreeBefore s dest r c) (hcs : dest.cols ≤ dest.stride) :
    s.cell dest.elements (r * dest.stride + c) = h.cell dest.elements (r * dest.stride + c) :=
  ha _ _ (fun _ _ _ hc' hlt => offset_ne hcs hc' hlt)

/-- Two nested loops over the shape of `dest` whose body at `(r, c)` amounts
to the store `dest[r][c] = V r c`: afterwards `dest` holds `V` and no other
cell of the heap has changed. -/
theorem fill_run (h : Heap α) (dest : Matrix) (hW : dest.Writable h)
    (body : Nat → Nat → Heap α → Except Fault (Heap α)) (V : Nat → Nat → α)
    (hbody : ∀ r, r < dest.rows → ∀ c, c < dest.cols → ∀ s : Heap α,
      h.AgreeBefore s dest r c →
      body r c s = s.store dest.elements (r * dest.stride + c) (V r c)) :
    ∃ h', forN dest.rows (fun r => forN dest.cols (body r)) h = .ok h' ∧ h.SameMeta h' ∧
      dest.Holds h' V ∧
      (∀ p j, (p = dest.elements → ∀ r, r < dest.rows → ∀ c, c < dest.cols →
        j ≠ r * dest.stride + c) → h'.cell p j = h.cell p j) := by
  obtain ⟨h', hrun, hmeta, hval, hframe⟩ := fill2 h dest.elements dest.stride dest.rows
    dest.cols hW.1 body V (by
      intro r hr c hc s _ hs
      obtain ⟨s', hst, hm, hv, hf⟩ := s.store_spec dest.elements (r * dest.stride + c) (V r c)
        (by rw [Heap.AgreeBefore.current hs hW.1]; exact hW.cell_isSome hr hc)
      exact ⟨s', by rw [hbody r hr c hc s hs]; exact hst, hm, hv, hf⟩)
  refine ⟨h', hrun, hmeta, ?_, hframe⟩
  intro r hr c hc
  rw [Heap.elem, MAT_AT_eq hW.1 hW.2.1 hr hc]
  exact hval r hr c hc

/-! ## Allocation -/

theorem Heap.malloc_spec (h : Heap α) (bytes : Nat) (hb : bytes ≤ h.limit) :
    (h.malloc bytes).1 = h.blocks.length + 1 ∧
      (h.malloc bytes).2.limit = h.limit ∧ (h.malloc bytes).2.junk = h.junk ∧
      (h.malloc bytes).2.blocks.length = h.blocks.length + 1 ∧
      (∀ j, j < bytes / 4 → ((h.malloc bytes).2.cell (h.blocks.length + 1) j).isSome) ∧
      (∀ p j, p ≠ h.blocks.length + 1 → (h.malloc bytes).2.cell p j = h.cell p j) := by
  unfold Heap.malloc
  rw [if_pos hb]
  refine ⟨rfl, rfl, rfl, by simp, ?_, ?_⟩
  · intro j hj
    simp [Heap.cell, hj]
  · intro p j hp
    cases p with
    | zero => rfl
    | succ q =>
      have hq : q ≠ h.blocks.length := fun e => hp (by rw [e])
      simp only [Heap.cell]
      rcases Nat.lt_or_gt_of_ne hq with hlt | hgt
      · rw [List.getElem?_append_left hlt]
      · rw [List.getElem?_eq_none (by simp; omega), List.getElem?_eq_none (by omega)]

/-- What `__alloc__matrix` does when the request is granted: it returns a
matrix of the requested shape with `stride = cols` in a fresh block, every
element `0`, and leaves the earlier blocks alone. -/
theorem alloc_run [Zero α] (h : Heap α) (rows cols : Nat) (hg : h.Grants rows cols) :
    ∃ h', __alloc__matrix rows cols h = .ok (⟨rows, cols, cols, h.blocks.length + 1⟩, h') ∧
      h'.limit = h.limit ∧ h'.junk = h.junk ∧ h'.blocks.length = h.blocks.length + 1 ∧
      (⟨rows, cols, cols, h.blocks.length + 1⟩ : Matrix).Holds h' (fun _ _ => (0 : α)) ∧
      (⟨rows, cols, cols, h.blocks.length + 1⟩ : Matrix).Writable h' ∧
      (∀ p j, p ≠ h.blocks.length + 1 → h'.cell p j = h.cell p j) := by
  obtain ⟨hsz, hlim⟩ := hg
  have hbytes : sizeT (sizeT (rows * cols) * 4) = rows * cols * 4 := by
    rw [sizeT_of_lt (n := rows * cols) (by omega), sizeT_of_lt hsz]
  obtain ⟨hp, hl, hj, hlen, hnew, hold⟩ := h.malloc_spec (rows * cols * 4) hlim
  have hsz' : rows * cols < 2 ^ 64 := by omega
  have hat : ∀ r c, r < rows → c < cols →
      MAT_AT ⟨rows, cols, cols, h.blocks.length + 1⟩ r c = r * cols + c :=
    fun r c hr hc => @MAT_AT_eq ⟨rows, cols, cols, h.blocks.length + 1⟩
      (Nat.le_refl _) hsz' r c hr hc
  obtain ⟨h', hrun, hmeta, hval, hframe⟩ := fill2 (h.malloc (rows * cols * 4)).2
    (h.blocks.length + 1) cols rows cols (Nat.le_refl _)
    (fun row col s =>
      s.store (h.blocks.length + 1) (MAT_AT ⟨rows, cols, cols, h.blocks.length + 1⟩ row col) 0)
    (fun _ _ => (0 : α))
    (by
      intro r hr c hc s hms hs
      have hcur := hs (h.blocks.length + 1) (r * cols + c)
        (fun _ r' c' hc' hlt => offset_ne (Nat.le_refl _) hc' hlt)
      have hin : r * cols + c < rows * cols * 4 / 4 := by
        have h1 : (r + 1) * cols ≤ rows * cols := Nat.mul_le_mul_right _ hr
        rw [Nat.add_mul, Nat.one_mul] at h1
        omega
      obtain ⟨s', hst, hm, hv, hf⟩ := s.store_spec (h.blocks.length + 1) (r * cols + c) (0 : α)
        (by rw [hcur]; exact hnew _ hin)
      exact ⟨s', by simp only [hat r c hr hc]; exact hst, hm, hv, hf⟩)
  refine ⟨h', ?_, hmeta.1.trans hl, hmeta.2.1.trans hj, hmeta.2.2.trans hlen, ?_, ?_, ?_⟩
  · simp only [__alloc__matrix, hbytes, hp]
    rw [if_neg (Nat.succ_ne_zero _), hrun]
    rfl
  · intro r hr c hc
    rw [Heap.elem, hat r c hr hc]
    exact hval r hr c hc
  · refine ⟨Nat.le_refl _, hsz', ?_⟩
    intro r hr c hc
    rw [Heap.elem, hat r c hr hc, hval r hr c hc]
    rfl
  · intro p j hp'
    rw [hframe p j (fun e => absurd e hp')]
    exact hold p j hp'

/-- What `__identity__matrix` does when the request is granted. -/
theorem identity_run [Zero α] [One α] (h : Heap α) (n : Nat) (hg : h.Grants n n) :
    ∃ h', __identity__matrix n h = .ok (⟨n, n, n, h.blocks.length + 1⟩, h') ∧
      h.Extends h' ∧ h'.blocks.length = h.blocks.length + 1 ∧
      (⟨n, n, n, h.blocks.length + 1⟩ : Matrix).Stored h'
        (fun i j => if i = j then (1 : α) else 0) ∧
      (⟨n, n, n, h.blocks.length + 1⟩ : Matrix).Writable h' := by
  obtain ⟨h1, hrun1, hl1, hj1, hlen1, hz1, hw1, hf1⟩ := alloc_run h n n hg
  have hat : ∀ r c, r < n → c < n →
      MAT_AT ⟨n, n, n, h.blocks.length + 1⟩ r c = r * n + c :=
    fun r c hr hc => @MAT_AT_eq ⟨n, n, n, h.blocks.length + 1⟩ hw1.1 hw1.2.1 r c hr hc
  obtain ⟨h2, hrun2, hmeta, hval, hframe⟩ := forN_writes h1 (h.blocks.length + 1) n
    (fun i s => s.store (h.blocks.length + 1) (MAT_AT ⟨n, n, n, h.blocks.length + 1⟩ i i) 1)
    (fun i j => j = i * n + i) (fun _ _ => some (1 : α))
    (by
      intro i i' j hlt hi' hj hj'
      have := Nat.mul_le_mul_right n (Nat.le_of_lt hlt)
      omega)
    (by
      intro i hi s _ hs
      obtain ⟨s', hst, hm, hv, hf⟩ := s.store_spec (h.blocks.length + 1) (i * n + i) (1 : α) (by
        rw [hs _ _ (fun _ i' hi' hj => by
          have := Nat.mul_le_mul_right n (Nat.le_of_lt hi')
          omega)]
        exact Matrix.Writable.cell_isSome hw1 hi hi)
      exact ⟨s', by simp only [hat i i hi hi]; exact hst, hm, fun j hj => by rw [hj]; exact hv,
        hf⟩)
  have hcells : ∀ r, r < n → ∀ c, c < n →
      h2.cell (h.blocks.length + 1) (r * n + c) = some (if r = c then (1 : α) else 0) := by
    intro r hr c hc
    by_cases hrc : r = c
    · subst hrc
      rw [if_pos rfl]
      exact hval r hr _ rfl
    · rw [if_neg hrc, hframe _ _ (fun _ i hi hj =>
        hrc ((offset_inj hc hi hj).1.trans (offset_inj hc hi hj).2.symm))]
      exact Matrix.Holds.cell_eq hz1 hw1.1 hw1.2.1 hr hc
  refine ⟨h2, ?_, ⟨hmeta.1.trans hl1, hmeta.2.1.trans hj1, ?_, ?_⟩, hmeta.2.2.trans hlen1,
    ⟨?_, ?_⟩, hw1.1, hw1.2.1, ?_⟩
  · simp only [__identity__matrix, hrun1, bind, Except.bind, hrun2, pure, Except.pure]
  · rw [hmeta.2.2, hlen1]; omega
  · intro p j hp
    have hp' : p ≠ h.blocks.length + 1 := by omega
    rw [hframe p j (fun e => absurd e hp'), hf1 p j hp']
  · show h.blocks.length + 1 ≤ h2.blocks.length
    rw [hmeta.2.2, hlen1]
  · intro r hr c hc
    rw [Heap.elem, hat r c hr hc]
    exact hcells r hr c hc
  · intro r hr c hc
    rw [Heap.elem, hat r c hr hc, hcells r hr c hc]
    rfl

/-! ## The dot product -/

/-- What `__dot__matrix` does when the shapes fit and `dest` has a buffer of
its own: it succeeds, `dest` holds the product, nothing else changes. -/
theorem dot_run [Zero α] [Add α] [Mul α] (h : Heap α) (dest a b : Matrix)
    (A B : Nat → Nat → α) (hab : a.cols = b.rows) (hda : dest.rows = a.rows)
    (hdb : dest.cols = b.cols) (hA : a.Holds h A) (hB : b.Holds h B)
    (hW : dest.Writable h) (hna : a.elements ≠ dest.elements)
    (hnb : b.elements ≠ dest.elements) :
    ∃ h', __dot__matrix dest a b h = .ok h' ∧ h.SameMeta h' ∧
      dest.Holds h' (fun i j => sumTo a.cols (fun k => A i k * B k j)) ∧
      (∀ p j, (p = dest.elements → ∀ r, r < dest.rows → ∀ c, c < dest.cols →
        j ≠ r * dest.stride + c) → h'.cell p j = h.cell p j) := by
  have hcs := hW.1
  have hsz := hW.2.1
  have key := fill2 h dest.elements dest.stride dest.rows dest.cols hcs
    (fun row col s0 => do
      let s1 ← s0.store dest.elements (MAT_AT dest row col) 0
      forN a.cols (fun i s => do
        let x ← s.load a.elements (MAT_AT a row i)
        let y ← s.load b.elements (MAT_AT b i col)
        let d ← s.load dest.elements (MAT_AT dest row col)
        s.store dest.elements (MAT_AT dest row col) (d + x * y)) s1)
    (fun i j => sumTo a.cols (fun k => A i k * B k j))
    (by
      intro r hr c hc s hms hs
      have hcur : s.cell dest.elements (r * dest.stride + c) =
          h.cell dest.elements (r * dest.stride + c) :=
        hs _ _ (fun _ r' c' hc' hlt => offset_ne hcs hc' hlt)
      have hsome : (s.cell dest.elements (r * dest.stride + c)).isSome := by
        rw [hcur]; exact hW.cell_isSome hr hc
      obtain ⟨s1, hst, hm1, hv1, hf1⟩ := s.store_spec _ _ (0 : α) hsome
      obtain ⟨t, ht, hm2, hv2, hf2⟩ := forN_inv
        (fun i (t : Heap α) => s1.SameMeta t ∧
          t.cell dest.elements (r * dest.stride + c) =
            some (sumTo i (fun k => A r k * B k c)) ∧
          ∀ p j, (p = dest.elements → j ≠ r * dest.stride + c) → t.cell p j = s1.cell p j)
        a.cols
        (fun i s => do
          let x ← s.load a.elements (MAT_AT a r i)
          let y ← s.load b.elements (MAT_AT b i c)
          let d ← s.load dest.elements (MAT_AT dest r c)
          s.store dest.elements (MAT_AT dest r c) (d + x * y)) s1
        ⟨Heap.sameMeta_refl s1, hv1, fun _ _ _ => rfl⟩
        (by
          rintro i hi t ⟨hmt, hvt, hft⟩
          have hx : t.cell a.elements (MAT_AT a r i) = some (A r i) := by
            rw [hft _ _ (fun e => absurd e hna), hf1 _ _ (fun e => absurd e hna),
              hs _ _ (fun e => absurd e hna)]
            exact hA r (hda ▸ hr) i hi
          have hy : t.cell b.elements (MAT_AT b i c) = some (B i c) := by
            rw [hft _ _ (fun e => absurd e hnb), hf1 _ _ (fun e => absurd e hnb),
              hs _ _ (fun e => absurd e hnb)]
            exact hB i (hab ▸ hi) c (hdb ▸ hc)
          obtain ⟨t', hst', hm', hv', hf'⟩ := t.store_spec dest.elements
            (r * dest.stride + c) (sumTo i (fun k => A r k * B k c) + A r i * B i c)
            (by rw [hvt]; rfl)
          refine ⟨t', ?_, hmt.andThen hm', hv', ?_⟩
          · simp only [MAT_AT_eq hcs hsz hr hc, Heap.load_of_cell hx, Heap.load_of_cell hy,
              Heap.load_of_cell hvt, bind, Except.bind]
            exact hst'
          · intro p j hpj
            rw [hf' p j hpj, hft p j hpj])
      refine ⟨t, ?_, hm1.andThen hm2, hv2, ?_⟩
      · simp only [MAT_AT_eq hcs hsz hr hc, hst, bind, Except.bind]
        simp only [MAT_AT_eq hcs hsz hr hc] at ht
        exact ht
      · intro p j hpj
        rw [hf2 p j hpj, hf1 p j hpj])
  obtain ⟨h', hrun, hmeta, hval, hframe⟩ := key
  refine ⟨h', ?_, hmeta, ?_, hframe⟩
  · unfold __dot__matrix
    rw [if_neg (not_not.2 hab), if_neg (not_not.2 hda.symm), if_neg (not_not.2 hdb.symm)]
    exact hrun
  · intro r hr c hc
    rw [Heap.elem, MAT_AT_eq hcs hsz hr hc]
    exact hval r hr c hc

theorem Matrix.Holds.of_cells {mat : Matrix} {h h' : Heap α} {A : Nat → Nat → α}
    (hA : mat.Holds h A) (hc : ∀ j, h'.cell mat.elements j = h.cell mat.elements j) :
    mat.Holds h' A := by
  intro r hr c hcl
  rw [Heap.elem, hc]
  exact hA r hr c hcl

theorem Heap.extends_refl (h : Heap α) : h.Extends h :=
  ⟨rfl, rfl, Nat.le_refl _, fun _ _ _ => rfl⟩

theorem Heap.Extends.andAlso {h s t : Heap α} (a : h.Extends s) (b : s.Extends t) :
    h.Extends t :=
  ⟨b.1.trans a.1, b.2.1.trans a.2.1, Nat.le_trans a.2.2.1 b.2.2.1, fun p j hp => by
    rw [b.2.2.2 p j (Nat.le_trans hp a.2.2.1), a.2.2.2 p j hp]⟩

theorem Matrix.Stored.extend {mat : Matrix} {h h' : Heap α} {A : Nat → Nat → α}
    (hA : mat.Stored h A) (he : h.Extends h') : mat.Stored h' A :=
  ⟨Nat.le_trans hA.1 he.2.2.1, hA.2.of_cells (fun j => he.2.2.2 _ j hA.1)⟩

/-- One step of the chain on stored operands with fitting inner dimension:
the result is a fresh matrix holding the product, the operands are as before. -/
theorem dotFresh_run [Zero α] [Add α] [Mul α] (h : Heap α) (a b : Matrix)
    (A B : Nat → Nat → α) (hab : a.cols = b.rows) (hA : a.Stored h A) (hB : b.Stored h B)
    (hg : h.Grants a.rows b.cols) :
    ∃ h', dotFresh a b h = .ok (⟨a.rows, b.cols, b.cols, h.blocks.length + 1⟩, h') ∧
      h.Extends h' ∧ h'.blocks.length = h.blocks.length + 1 ∧
      (⟨a.rows, b.cols, b.cols, h.blocks.length + 1⟩ : Matrix).Stored h' (matMul a.cols A B) := by
  obtain ⟨h1, hrun1, hl1, hj1, hlen1, -, hw1, hf1⟩ := alloc_run h a.rows b.cols hg
  have hne : ∀ {m : Matrix}, m.elements ≤ h.blocks.length → m.elements ≠ h.blocks.length + 1 :=
    fun hm => by omega
  obtain ⟨h2, hrun2, hm2, hval2, hf2⟩ := dot_run h1 ⟨a.rows, b.cols, b.cols, h.blocks.length + 1⟩
    a b A B hab rfl rfl (hA.2.of_cells (fun j => hf1 _ j (hne hA.1)))
    (hB.2.of_cells (fun j => hf1 _ j (hne hB.1))) hw1 (hne hA.1) (hne hB.1)
  refine ⟨h2, ?_, ⟨hm2.1.trans hl1, hm2.2.1.trans hj1, ?_, ?_⟩, hm2.2.2.trans hlen1,
    ?_, hval2⟩
  · simp only [dotFresh, hrun1, hrun2, bind, Except.bind, pure, Except.pure]
  · rw [hm2.2.2, hlen1]; omega
  · intro p j hp
    have hp' : p ≠ h.blocks.length + 1 := by omega
    rw [hf2 p j (fun e => absurd e hp'), hf1 p j hp']
  · show h.blocks.length + 1 ≤ h2.blocks.length
    rw [hm2.2.2, hlen1]

/-! ## Elementwise operations -/

/-- What `__scalar__multiply` does to a properly laid out matrix holding `M`. -/
theorem scalar_run [Mul α] (h : Heap α) (mat : Matrix) (x : α) (M : Nat → Nat → α)
    (hW : mat.Writable h) (hM : mat.Holds h M) :
    ∃ h', __scalar__multiply mat x h = .ok h' ∧ h.SameMeta h' ∧
      mat.Holds h' (fun r c => M r c * x) ∧
      (∀ p j, (p = mat.elements → ∀ r, r < mat.rows → ∀ c, c < mat.cols →
        j ≠ r * mat.stride + c) → h'.cell p j = h.cell p j) :=
  fill_run h mat hW _ _ (by
    intro r hr c hc s hs
    have hv : s.cell mat.elements (r * mat.stride + c) = some (M r c) := by
      rw [hs.current hW.1]; exact hM.cell_eq hW.1 hW.2.1 hr hc
    simp only [MAT_AT_eq hW.1 hW.2.1 hr hc, Heap.load_of_cell hv, bind, Except.bind])

/-- What `__copy__matrix` does when the shapes agree and `src` has a buffer
of its own. -/
theorem copy_run (h : Heap α) (dest src : Matrix) (S : Nat → Nat → α)
    (hrows : dest.rows = src.rows) (hcols : dest.cols = src.cols) (hW : dest.Writable h)
    (hS : src.Holds h S) (hne : src.elements ≠ dest.elements) :
    ∃ h', __copy__matrix dest src h = .ok h' ∧ h.SameMeta h' ∧ dest.Holds h' S ∧
      (∀ p j, (p = dest.elements → ∀ r, r < dest.rows → ∀ c, c < dest.cols →
        j ≠ r * dest.stride + c) → h'.cell p j = h.cell p j) := by
  obtain ⟨h', hrun, rest⟩ := fill_run h dest hW
    (fun row col s => do
      let v ← s.load src.elements (MAT_AT src row col)
      s.store dest.elements (MAT_AT dest row col) v) S (by
    intro r hr c hc s hs
    have hv : s.cell src.elements (MAT_AT src r c) = some (S r c) := by
      rw [hs.other hne]; exact hS r (hrows ▸ hr) c (hcols ▸ hc)
    simp only [MAT_AT_eq hW.1 hW.2.1 hr hc, Heap.load_of_cell hv, bind, Except.bind])
  refine ⟨h', ?_, rest⟩
  unfold __copy__matrix
  rw [if_neg (not_not.2 hrows), if_neg (not_not.2 hcols)]
  exact hrun

/-- What `__sum__matrix` does when `mat` fits inside `dest` and either has a
buffer of its own or is `dest` itself: the positions of `mat`'s shape get
`dest + mat`, the other positions of `dest` and the other blocks of the heap
stay as they were. -/
theorem sum_run [Add α] (h : Heap α) (dest mat : Matrix) (D O : Nat → Nat → α)
    (hrows : mat.rows ≤ dest.rows) (hcols : mat.cols ≤ dest.cols) (hW : dest.Writable h)
    (hD : dest.Holds h D) (hO : mat.Holds h O)
    (hne : mat.elements ≠ dest.elements ∨ mat = dest) :
    ∃ h', __sum__matrix dest mat h = .ok h' ∧ h.SameMeta h' ∧
      dest.Holds h' (fun r c => if r < mat.rows ∧ c < mat.cols then D r c + O r c else D r c) ∧
      (∀ p j, p ≠ dest.elements → h'.cell p j = h.cell p j) := by
  have hsz : mat.rows * dest.stride < 2 ^ 64 :=
    Nat.lt_of_le_of_lt (Nat.mul_le_mul_right _ hrows) hW.2.1
  have hWv : (⟨mat.rows, mat.cols, dest.stride, dest.elements⟩ : Matrix).Writable h :=
    ⟨Nat.le_trans hcols hW.1, hsz, fun r hr c hc =>
      hW.2.2 r (Nat.lt_of_lt_of_le hr hrows) c (Nat.lt_of_lt_of_le hc hcols)⟩
  obtain ⟨h', hrun, hmeta, hval, hframe⟩ := fill_run h
    ⟨mat.rows, mat.cols, dest.stride, dest.elements⟩ hWv
    (fun row col s => do
      let d ← s.load dest.elements (MAT_AT dest row col)
      let m ← s.load mat.elements (MAT_AT mat row col)
      s.store dest.elements (MAT_AT dest row col) (d + m))
    (fun r c => D r c + O r c) (by
    intro r hr c hc s hs
    have hr' : r < dest.rows := Nat.lt_of_lt_of_le hr hrows
    have hc' : c < dest.cols := Nat.lt_of_lt_of_le hc hcols
    have hd : s.cell dest.elements (r * dest.stride + c) = some (D r c) := by
      rw [hs.current hWv.1]; exact hD.cell_eq hW.1 hW.2.1 hr' hc'
    have hm : s.cell mat.elements (MAT_AT mat r c) = some (O r c) := by
      rcases hne with hne | heq
      · rw [hs.other hne]; exact hO r hr c hc
      · have hcur : s.cell dest.elements (r * dest.stride + c) =
            h.cell dest.elements (r * dest.stride + c) := hs.current hWv.1
        have hO' := hO r hr c hc
        rw [Heap.elem, heq, MAT_AT_eq hW.1 hW.2.1 hr' hc'] at hO'
        rw [heq, MAT_AT_eq hW.1 hW.2.1 hr' hc']
        exact hcur.trans hO'
    simp only [MAT_AT_eq hW.1 hW.2.1 hr' hc', Heap.load_of_cell hd, Heap.load_of_cell hm,
      bind, Except.bind])
  refine ⟨h', hrun, hmeta, ?_, fun p j hp => hframe p j (fun e => absurd e hp)⟩
  intro r hr c hc
  by_cases hin : r < mat.rows ∧ c < mat.cols
  · show h'.elem dest r c = some (if r < mat.rows ∧ c < mat.cols then D r c + O r c else D r c)
    rw [if_pos hin]
    exact hval r hin.1 c hin.2
  · show h'.elem dest r c = some (if r < mat.rows ∧ c < mat.cols then D r c + O r c else D r c)
    rw [if_neg hin, Heap.elem, MAT_AT_eq hW.1 hW.2.1 hr hc, hframe, hD.cell_eq hW.1 hW.2.1 hr hc]
    intro _ r' hr' c' hc' he
    have := offset_inj (Nat.lt_of_lt_of_le hc hW.1)
      (Nat.lt_of_lt_of_le hc' (Nat.le_trans hcols hW.1)) he
    exact hin ⟨this.1 ▸ hr', this.2 ▸ hc'⟩

/-! ## Correlation -/

theorem subT_eq {a b : Nat} (ha : a < 2 ^ 64) (hb : b ≤ a) : subT a b = a - b := by
  unfold subT
  rw [Nat.mod_eq_of_lt (Nat.lt_of_le_of_lt hb ha)]
  have h1 : a + (2 ^ 64 - b) = (a - b) + 2 ^ 64 := by omega
  rw [h1, Nat.add_mod_right, Nat.mod_eq_of_lt (by omega)]

/-- The two inner loops of `__convolution__matrix`: the window sum at
`(row, col)`, when every read of the window succeeds. -/
theorem conv_window [Zero α] [Add α] [Mul α] (s : Heap α) (A B : Matrix)
    (Av Bv : Nat → Nat → α) (row col : Nat)
    (hreadA : ∀ i, i < B.rows → ∀ j, j < B.cols →
      s.load A.elements (MAT_AT A (sizeT (row + i)) (sizeT (col + j))) =
        .ok (Av (row + i) (col + j)))
    (hreadB : ∀ i, i < B.rows → ∀ j, j < B.cols →
      s.load B.elements (MAT_AT B i j) = .ok (Bv i j)) :
    forN B.rows (fun i =>
      forN B.cols (fun j (acc : α) => do
        let x ← s.load A.elements (MAT_AT A (sizeT (row + i)) (sizeT (col + j)))
        let y ← s.load B.elements (MAT_AT B i j)
        pure (acc + x * y))) 0 =
      .ok (sum2 B.rows B.cols (fun i j => Av (row + i) (col + j) * Bv i j)) := by
  obtain ⟨t, ht, hP⟩ := forN_inv
    (fun i (acc : α) => acc = sum2 i B.cols (fun i j => Av (row + i) (col + j) * Bv i j))
    B.rows _ (0 : α) rfl (by
      intro i hi acc hacc
      obtain ⟨t, ht, hP⟩ := forN_inv
        (fun j (a : α) => a = accTo j (fun j => Av (row + i) (col + j) * Bv i j) acc)
        B.cols (fun j (acc : α) => do
          let x ← s.load A.elements (MAT_AT A (sizeT (row + i)) (sizeT (col + j)))
          let y ← s.load B.elements (MAT_AT B i j)
          pure (acc + x * y)) acc rfl (by
          intro j hj a ha
          refine ⟨a + Av (row + i) (col + j) * Bv i j, ?_, by rw [ha]; rfl⟩
          simp only [hreadA i hi j hj, hreadB i hi j hj, bind, Except.bind, pure, Except.pure])
      exact ⟨t, ht, by rw [hP, hacc]; rfl⟩)
  rw [ht, hP]

/-- What `__convolution__matrix` does when its two output dimensions, as
computed in `size_t`, come out as `R` and `Cc`, every window it visits lies
inside the input, and the request for the output buffer is granted. -/
theorem conv_run_dims [Zero α] [Add α] [Mul α] (h : Heap α) (A B : Matrix)
    (Av Bv : Nat → Nat → α) (R Cc : Nat) (hR : sizeT (subT A.rows B.rows + 1) = R)
    (hC : sizeT (subT A.cols B.cols + 1) = Cc) (hAr : A.rows < 2 ^ 64) (hAc : A.cols < 2 ^ 64)
    (hfit : ∀ r, r < R → ∀ c, c < Cc → ∀ i, i < B.rows → ∀ j, j < B.cols →
      r + i < A.rows ∧ c + j < A.cols)
    (hA : A.Stored h Av) (hB : B.Stored h Bv) (hg : h.Grants R Cc) :
    ∃ h', __convolution__matrix A B h = .ok (⟨R, Cc, Cc, h.blocks.length + 1⟩, h') ∧
      h.Extends h' ∧ h'.blocks.length = h.blocks.length + 1 ∧
      (⟨R, Cc, Cc, h.blocks.length + 1⟩ : Matrix).Stored h'
        (fun r c => sum2 B.rows B.cols (fun i j => Av (r + i) (c + j) * Bv i j)) := by
  obtain ⟨h1, hrun1, hl1, hj1, hlen1, -, hw1, hf1⟩ := alloc_run h R Cc hg
  have hneA : A.elements ≠ h.blocks.length + 1 := by have := hA.1; omega
  have hneB : B.elements ≠ h.blocks.length + 1 := by have := hB.1; omega
  obtain ⟨h2, hrun2, hmeta, hval, hframe⟩ := fill_run h1 ⟨R, Cc, Cc, h.blocks.length + 1⟩ hw1
    (fun row col s => do
      let sum ← forN B.rows (fun i =>
        forN B.cols (fun j (acc : α) => do
          let x ← s.load A.elements (MAT_AT A (sizeT (row + i)) (sizeT (col + j)))
          let y ← s.load B.elements (MAT_AT B i j)
          pure (acc + x * y))) 0
      s.store (h.blocks.length + 1) (MAT_AT ⟨R, Cc, Cc, h.blocks.length + 1⟩ row col) sum)
    (fun r c => sum2 B.rows B.cols (fun i j => Av (r + i) (c + j) * Bv i j)) (by
      intro r hr' c hc' s hs
      have hwin := conv_window s A B Av Bv r c
        (by
          intro i hi j hj
          have hin := hfit r hr' c hc' i hi j hj
          apply Heap.load_of_cell
          rw [sizeT_of_lt (n := r + i) (by omega), sizeT_of_lt (n := c + j) (by omega),
            hs.other hneA, hf1 _ _ hneA]
          exact hA.2 (r + i) hin.1 (c + j) hin.2)
        (by
          intro i hi j hj
          apply Heap.load_of_cell
          rw [hs.other hneB, hf1 _ _ hneB]
          exact hB.2 i hi j hj)
      show (forN B.rows _ (0 : α) >>= fun sum => s.store _ _ sum) = _
      rw [hwin, @MAT_AT_eq _ hw1.1 hw1.2.1 r c hr' hc']
      rfl)
  refine ⟨h2, ?_, ⟨hmeta.1.trans hl1, hmeta.2.1.trans hj1, ?_, ?_⟩, hmeta.2.2.trans hlen1,
    ?_, hval⟩
  · simp only [__convolution__matrix, hR, hC, hrun1]
    exact (congrArg (fun x : Except Fault (Heap α) => x >>= fun t => pure
      ((⟨R, Cc, Cc, h.blocks.length + 1⟩ : Matrix), t)) hrun2).trans rfl
  · rw [hmeta.2.2, hlen1]; omega
  · intro p j hp
    have hp' : p ≠ h.blocks.length + 1 := by omega
    rw [hframe p j (fun e => absurd e hp'), hf1 p j hp']
  · show h.blocks.length + 1 ≤ h2.blocks.length
    rw [hmeta.2.2, hlen1]

/-- What `__convolution__matrix` does when the kernel fits inside the input
and the request for the output buffer is granted. -/
theorem conv_run [Zero α] [Add α] [Mul α] (h : Heap α) (A B : Matrix) (Av Bv : Nat → Nat → α)
    (hAr : A.rows < 2 ^ 64) (hAc : A.cols < 2 ^ 64) (hr : B.rows ≤ A.rows)
    (hc : B.cols ≤ A.cols) (hA : A.Stored h Av) (hB : B.Stored h Bv)
    (hg : h.Grants (A.rows - B.rows + 1) (A.cols - B.cols + 1)) :
    ∃ h', __convolution__matrix A B h =
        .ok (⟨A.rows - B.rows + 1, A.cols - B.cols + 1, A.cols - B.cols + 1,
          h.blocks.length + 1⟩, h') ∧
      h.Extends h' ∧ h'.blocks.length = h.blocks.length + 1 ∧
      (⟨A.rows - B.rows + 1, A.cols - B.cols + 1, A.cols - B.cols + 1,
          h.blocks.length + 1⟩ : Matrix).Stored h'
        (fun r c => sum2 B.rows B.cols (fun i j => Av (r + i) (c + j) * Bv i j)) := by
  have hrowC : sizeT (subT A.rows B.rows + 1) = A.rows - B.rows + 1 := by
    have h1 := Nat.le_mul_of_pos_right (A.rows - B.rows + 1) (Nat.succ_pos (A.cols - B.cols))
    have h4 := hg.1
    generalize (A.rows - B.rows + 1) * (A.cols - B.cols + 1) = P at h1 h4
    rw [subT_eq hAr hr, sizeT_of_lt (by omega)]
  have hcolC : sizeT (subT A.cols B.cols + 1) = A.cols - B.cols + 1 := by
    have h1 := Nat.le_mul_of_pos_left (A.cols - B.cols + 1) (Nat.succ_pos (A.rows - B.rows))
    have h4 := hg.1
    generalize (A.rows - B.rows + 1) * (A.cols - B.cols + 1) = P at h1 h4
    rw [subT_eq hAc hc, sizeT_of_lt (by omega)]
  exact conv_run_dims h A B Av Bv _ _ hrowC hcolC hAr hAc
    (fun r hr' c hc' i hi j hj => ⟨by omega, by omega⟩) hA hB hg

/-- With a kernel of one row (or column) the output dimension, as computed in
`size_t`, is the input's, also for an input without rows. -/
theorem sizeT_subT_one {a : Nat} (ha : a < 2 ^ 64) : sizeT (subT a 1 + 1) = a := by
  unfold sizeT subT
  omega

/-! ## The chained product -/

theorem alloc_shape [Zero α] {rows cols : Nat} {h h' : Heap α} {m : Matrix}
    (hrun : __alloc__matrix rows cols h = .ok (m, h')) :
    m.rows = rows ∧ m.cols = cols ∧ m.stride = cols := by
  unfold __alloc__matrix at hrun
  simp only at hrun
  split at hrun
  · cases hrun
  · cases hf : forN rows (fun row => forN cols (fun col s =>
        s.store (h.malloc (sizeT (sizeT (rows * cols) * 4))).1
          (MAT_AT ⟨rows, cols, cols, (h.malloc (sizeT (sizeT (rows * cols) * 4))).1⟩ row col) 0))
        (h.malloc (sizeT (sizeT (rows * cols) * 4))).2 with
    | error e => rw [hf] at hrun; cases hrun
    | ok t =>
      rw [hf] at hrun
      simp only [Except.map] at hrun
      cases hrun
      exact ⟨rfl, rfl, rfl⟩

theorem dotFresh_shape [Zero α] [Add α] [Mul α] {a b m : Matrix} {h h' : Heap α}
    (hrun : dotFresh a b h = .ok (m, h')) : m.rows = a.rows ∧ m.cols = b.cols := by
  unfold dotFresh at hrun
  cases ha : __alloc__matrix a.rows b.cols h with
  | error e => simp [ha, bind, Except.bind] at hrun
  | ok r =>
    obtain ⟨m1, h1⟩ := r
    have hs := alloc_shape ha
    cases hd : __dot__matrix m1 a b h1 with
    | error e => simp [ha, hd, bind, Except.bind] at hrun
    | ok h2 =>
      simp only [ha, hd, bind, Except.bind, pure, Except.pure, Except.ok.injEq,
        Prod.mk.injEq] at hrun
      rw [← hrun.1]
      exact ⟨hs.1, hs.2.1⟩

theorem chainFold_cons [Zero α] [Add α] [Mul α] (m0 x : Matrix) (xs : List Matrix)
    (h : Heap α) :
    chainFold m0 (x :: xs) h = dotFresh m0 x h >>= fun r => chainFold r.1 xs r.2 := by
  simp [chainFold, List.foldlM_cons]

theorem chainFold_snoc [Zero α] [Add α] [Mul α] (m0 x : Matrix) (xs : List Matrix)
    (h : Heap α) :
    chainFold m0 (xs ++ [x]) h = chainFold m0 xs h >>= fun r => dotFresh r.1 x r.2 := by
  simp [chainFold, List.foldlM_append]

theorem chainFold_shape [Zero α] [Add α] [Mul α] (l : List Matrix) :
    ∀ (m0 m : Matrix) (h h' : Heap α), chainFold m0 l h = .ok (m, h') →
      m.rows = m0.rows ∧ m.cols = lastCols m0.cols l := by
  induction l with
  | nil =>
    intro m0 m h h' hrun
    simp only [chainFold, List.foldlM, pure, Except.pure, Except.ok.injEq, Prod.mk.injEq] at hrun
    rw [← hrun.1]
    exact ⟨rfl, rfl⟩
  | cons x xs ih =>
    intro m0 m h h' hrun
    rw [chainFold_cons] at hrun
    cases hd : dotFresh m0 x h with
    | error e => simp [hd, bind, Except.bind] at hrun
    | ok r =>
      obtain ⟨m1, h1⟩ := r
      simp only [hd, bind, Except.bind] at hrun
      have hs := dotFresh_shape hd
      have := ih m1 m h1 h' hrun
      exact ⟨this.1.trans hs.1, by rw [this.2, hs.2]; rfl⟩

theorem Compatible.take {n : Nat} {rest : List Matrix} (hc : Compatible n rest) :
    ∀ {k : Nat} {x : Matrix}, rest[k]? = some x → lastCols n (rest.take k) = x.rows := by
  induction rest generalizing n with
  | nil => intro k x hx; simp at hx
  | cons m ms ih =>
    intro k x hx
    cases k with
    | zero =>
      simp only [List.getElem?_cons_zero, Option.some.injEq] at hx
      rw [← hx]
      exact hc.1
    | succ k =>
      simp only [List.getElem?_cons_succ] at hx
      exact ih hc.2 hx

/-- A step of the loop past the first argument, on fitting shapes, is a
`dotFresh` of the running product with the next argument. -/
theorem multiplyStep_succ [Zero α] [Add α] [Mul α] (args : List Matrix) (k : Nat)
    (a0 a1 : Matrix) (d : Option Matrix) (h : Heap α) (ha : args[k + 1]? = some a1)
    (hfit : a0.cols = a1.rows) :
    multiplyStep args (k + 1) ⟨some a0, d, h⟩ =
      (dotFresh a0 a1 h).map (fun r => ⟨some r.1, some r.1, r.2⟩) := by
  simp only [multiplyStep, ha, Nat.succ_ne_zero, if_false, if_neg (not_not.2 hfit), dotFresh]
  cases __alloc__matrix a0.rows a1.cols h with
  | error e => rfl
  | ok r =>
    simp only [bind, Except.bind]
    cases __dot__matrix r.1 a0 a1 r.2 with
    | error e => rfl
    | ok h2 => rfl

/-- After `k + 1` rounds the loop of `__multiply__matrix` has folded the
first `k` of the arguments after `m0` into its running product. -/
theorem multiply_loop [Zero α] [Add α] [Mul α] (m0 : Matrix) (rest : List Matrix)
    (h : Heap α) (hc : Compatible m0.cols rest) :
    ∀ k, k ≤ rest.length →
      forN (k + 1) (multiplyStep (m0 :: rest)) (⟨none, none, h⟩ : MulState α) =
        (chainFold m0 (rest.take k) h).map
          (fun r => ⟨some r.1, if k = 0 then none else some r.1, r.2⟩) := by
  intro k
  induction k with
  | zero =>
    intro _
    rw [forN_succ, forN_zero]
    simp [multiplyStep, chainFold, bind, Except.bind, Except.map, pure, Except.pure]
  | succ k ih =>
    intro hk
    have hx : ∃ x, rest[k]? = some x := ⟨rest[k], List.getElem?_eq_getElem (by omega)⟩
    obtain ⟨x, hx⟩ := hx
    have htake : rest.take (k + 1) = rest.take k ++ [x] := by
      rw [List.take_succ, hx]; rfl
    rw [htake, chainFold_snoc, forN_succ, ih (by omega)]
    cases hf : chainFold m0 (rest.take k) h with
    | error e => rfl
    | ok r =>
      obtain ⟨cur, h1⟩ := r
      have hfit : cur.cols = x.rows := by
        rw [(chainFold_shape _ _ _ _ _ hf).2]
        exact hc.take hx
      simp only [Except.map, bind, Except.bind]
      rw [multiplyStep_succ (m0 :: rest) k cur x _ h1 (by simpa using hx) hfit]
      cases dotFresh cur x h1 with
      | error e => rfl
      | ok r2 => simp [Except.map]

/-- On two or more arguments with fitting shapes `__multiply__matrix` is the
left-to-right fold of `dotFresh` over them, faults included. -/
theorem multiply_eq_chainFold [Zero α] [Add α] [Mul α] (m0 m1 : Matrix) (rest : List Matrix)
    (h : Heap α) (hn : rest.length + 2 < 2 ^ 31) (hc : Compatible m0.cols (m1 :: rest)) :
    __multiply__matrix ((rest.length + 2 : Nat) : Int) (m0 :: m1 :: rest) h =
      chainFold m0 (m1 :: rest) h := by
  have hconv : (((rest.length + 2 : Nat) : Int) % 2 ^ 64).toNat = rest.length + 1 + 1 := by
    omega
  unfold __multiply__matrix
  rw [hconv, multiply_loop m0 (m1 :: rest) h hc (rest.length + 1) (by simp)]
  rw [show (m1 :: rest).take (rest.length + 1) = m1 :: rest from by simp]
  cases chainFold m0 (m1 :: rest) h with
  | error e => rfl
  | ok r => simp [Except.map, bind, Except.bind, pure, Except.pure]

/-- The fold of `dotFresh` over stored matrices with fitting shapes, every
intermediate allocation granted: it succeeds, the result has the rows of the
first and the columns of the last matrix and holds the left-to-right product
of the values, and none of the blocks that existed before is touched. -/
theorem chainFold_run [Zero α] [Add α] [Mul α] (rest : List (Matrix × (Nat → Nat → α))) :
    ∀ (h : Heap α) (m0 : Matrix) (A0 : Nat → Nat → α), m0.Stored h A0 →
      (∀ x ∈ rest, x.1.Stored h x.2) → Compatible m0.cols (rest.map Prod.fst) →
      (∀ x ∈ rest, h.Grants m0.rows x.1.cols) →
      ∃ dest h', chainFold m0 (rest.map Prod.fst) h = .ok (dest, h') ∧ h.Extends h' ∧
        dest.rows = m0.rows ∧ dest.cols = lastCols m0.cols (rest.map Prod.fst) ∧
        dest.Stored h' (chainVal m0.cols A0 rest) ∧
        (rest ≠ [] → h.blocks.length < dest.elements ∧ dest.stride = dest.cols) := by
  induction rest with
  | nil =>
    intro h m0 A0 h0 _ _ _
    exact ⟨m0, h, rfl, Heap.extends_refl h, rfl, rfl, h0, fun hne => absurd rfl hne⟩
  | cons x xs ih =>
    intro h m0 A0 h0 hst hc hg
    obtain ⟨h1, hrun1, hext1, hlen1, hst1⟩ := dotFresh_run h m0 x.1 A0 x.2 hc.1 h0
      (hst x (List.mem_cons_self _ _)) (hg x (List.mem_cons_self _ _))
    obtain ⟨dest, h', hrun, hext, hrows, hcols, hval, hfresh⟩ := ih h1
      ⟨m0.rows, x.1.cols, x.1.cols, h.blocks.length + 1⟩ (matMul m0.cols A0 x.2) hst1
      (fun y hy => (hst y (List.mem_cons_of_mem _ hy)).extend hext1) hc.2
      (fun y hy => by
        have := hg y (List.mem_cons_of_mem _ hy)
        exact ⟨this.1, by rw [hext1.1]; exact this.2⟩)
    refine ⟨dest, h', ?_, hext1.andAlso hext, hrows, hcols, hval, fun _ => ?_⟩
    · rw [List.map_cons, chainFold_cons, hrun1]
      exact hrun
    · cases xs with
      | nil =>
        simp only [List.map_nil, chainFold, List.foldlM, pure, Except.pure, Except.ok.injEq,
          Prod.mk.injEq] at hrun
        rw [← hrun.1]
        exact ⟨Nat.lt_succ_self _, rfl⟩
      | cons y ys =>
        have := hfresh (List.cons_ne_nil _ _)
        exact ⟨by rw [hlen1] at this; omega, this.2⟩

/-- The chained product of two stored matrices. -/
theorem multiply2_run [Zero α] [Add α] [Mul α] (h : Heap α) (a b : Matrix)
    (A B : Nat → Nat → α) (hab : a.cols = b.rows) (hA : a.Stored h A) (hB : b.Stored h B)
    (hg : h.Grants a.rows b.cols) :
    ∃ h', __multiply__matrix 2 [a, b] h =
        .ok (⟨a.rows, b.cols, b.cols, h.blocks.length + 1⟩, h') ∧
      h.Extends h' ∧ h'.blocks.length = h.blocks.length + 1 ∧
      (⟨a.rows, b.cols, b.cols, h.blocks.length + 1⟩ : Matrix).Stored h' (matMul a.cols A B) := by
  obtain ⟨h', hrun, rest⟩ := dotFresh_run h a b A B hab hA hB hg
  refine ⟨h', ?_, rest⟩
  have := multiply_eq_chainFold a b [] h (by decide) ⟨hab, trivial⟩
  rw [show (((([] : List Matrix).length + 2 : Nat) : Int)) = 2 from rfl] at this
  rw [this, chainFold_cons, hrun]
  rfl

/-! ## Algebra of the sums, in exact arithmetic -/

/-- In a commutative additive monoid the accumulated sum is the sum. -/
theorem sumTo_eq_sum [AddCommMonoid α] (n : Nat) (f : Nat → α) :
    sumTo n f = ∑ k in Finset.range n, f k := by
  induction n with
  | zero => simp [sumTo]
  | succ n ih => rw [sumTo, ih, Finset.sum_range_succ]

/-- Multiplying by the identity from the left picks out the row. -/
theorem sumTo_one_left [NonAssocSemiring α] (n i : Nat) (f : Nat → α) :
    sumTo n (fun k => (if i = k then (1 : α) else 0) * f k) = if i < n then f i else 0 := by
  induction n with
  | zero => simp [sumTo]
  | succ n ih =>
    rw [sumTo, ih]
    rcases Nat.lt_trichotomy i n with hlt | heq | hgt
    · rw [if_pos hlt, if_neg (Nat.ne_of_lt hlt), if_pos (by omega), zero_mul, add_zero]
    · subst heq
      rw [if_neg (Nat.lt_irrefl _), if_pos rfl, if_pos (Nat.lt_succ_self _), one_mul, zero_add]
    · rw [if_neg (by omega), if_neg (by omega), if_neg (by omega), zero_mul, add_zero]

/-- Multiplying by the identity from the right picks out the column. -/
theorem sumTo_one_right [NonAssocSemiring α] (n j : Nat) (f : Nat → α) :
    sumTo n (fun k => f k * (if k = j then (1 : α) else 0)) = if j < n then f j else 0 := by
  induction n with
  | zero => simp [sumTo]
  | succ n ih =>
    rw [sumTo, ih]
    rcases Nat.lt_trichotomy j n with hlt | heq | hgt
    · rw [if_pos hlt, if_neg (by omega), if_pos (by omega), mul_zero, add_zero]
    · subst heq
      rw [if_neg (Nat.lt_irrefl _), if_pos rfl, if_pos (Nat.lt_succ_self _), mul_one, zero_add]
    · rw [if_neg (by omega), if_neg (by omega), if_neg (by omega), mul_zero, add_zero]

/-- The matrix product is associative in a semiring. -/
theorem matMul_assoc [Semiring α] (n m : Nat) (A B C : Nat → Nat → α) :
    matMul m (matMul n A B) C = matMul n A (matMul m B C) := by
  funext i j
  simp only [matMul, sumTo_eq_sum, Finset.sum_mul, Finset.mul_sum, mul_assoc]
  exact Finset.sum_comm

/-- A sum whose terms are `0` except the one at index `i` is that term, in
an arithmetic where adding `0` on either side changes nothing. -/
theorem sumTo_single [Zero α] [Add α] (h0a : ∀ x : α, 0 + x = x) (ha0 : ∀ x : α, x + 0 = x)
    (n i : Nat) (f : Nat → α) (hz : ∀ k, k < n → k ≠ i → f k = 0) :
    sumTo n f = if i < n then f i else 0 := by
  induction n with
  | zero => rfl
  | succ n ih =>
    rw [sumTo, ih (fun k hk hne => hz k (by omega) hne)]
    rcases Nat.lt_trichotomy i n with hlt | heq | hgt
    · rw [if_pos hlt, if_pos (by omega), hz n (by omega) (by omega), ha0]
    · subst heq
      rw [if_neg (Nat.lt_irrefl _), if_pos (Nat.lt_succ_self _), h0a]
    · rw [if_neg (by omega), if_neg (by omega), hz n (by omega) (by omega), ha0]

/-! ## Which fault a call can end in -/

theorem Heap.load_fault {h : Heap α} {p i : Nat} {e : Fault} (he : h.load p i = .error e) :
    e = .undefined := by
  unfold Heap.load at he
  cases hc : h.cell p i with
  | none => rw [hc] at he; cases he; rfl
  | some v => rw [hc] at he; cases he

theorem Heap.store_fault {h : Heap α} {p i : Nat} {v : α} {e : Fault}
    (he : h.store p i v = .error e) : e = .undefined := by
  unfold Heap.store at he
  cases p with
  | zero => cases he; rfl
  | succ q =>
    simp only at he
    cases hb : h.blocks[q]? with
    | none => rw [hb] at he; cases he; rfl
    | some b =>
      rw [hb] at he
      simp only at he
      split at he
      · cases he
      · cases he; rfl

/-- A loop ends in a fault only if one of its rounds does. -/
theorem forN_fault {σ : Type} (Q : Fault → Prop) (n : Nat) (body : Nat → σ → Except Fault σ)
    (hbody : ∀ i s e, body i s = .error e → Q e) :
    ∀ (s : σ) (e : Fault), forN n body s = .error e → Q e := by
  induction n with
  | zero => intro s e he; rw [forN_zero] at he; cases he
  | succ n ih =>
    intro s e he
    rw [forN_succ] at he
    cases hf : forN n body s with
    | error e' =>
      rw [hf] at he
      cases he
      exact ih s e hf
    | ok t =>
      rw [hf] at he
      exact hbody n t e he

/-- What holds at loop entry and is kept by every round that succeeds holds
when the loop has run to its end. -/
theorem forN_ok_inv {σ : Type} (P : σ → Prop) (n : Nat) (body : Nat → σ → Except Fault σ)
    (hstep : ∀ i a b, P a → body i a = .ok b → P b) :
    ∀ (s t : σ), P s → forN n body s = .ok t → P t := by
  induction n with
  | zero => intro s t hs ht; rw [forN_zero] at ht; cases ht; exact hs
  | succ n ih =>
    intro s t hs ht
    rw [forN_succ] at ht
    cases hf : forN n body s with
    | error e => rw [hf] at ht; cases ht
    | ok u =>
      rw [hf] at ht
      exact hstep n u t (ih s u hs hf) ht

/-- Once a loop has ended in a fault, more rounds do not change that. -/
theorem forN_fault_mono {σ : Type} (body : Nat → σ → Except Fault σ) (s : σ) (e : Fault)
    (k : Nat) (hk : forN k body s = .error e) : ∀ n, k ≤ n → forN n body s = .error e := by
  intro n hn
  induction n with
  | zero =>
    have : k = 0 := by omega
    subst this; exact hk
  | succ n ih =>
    rcases Nat.lt_or_ge k (n + 1) with hlt | hge
    · rw [forN_succ, ih (by omega)]; rfl
    · have : k = n + 1 := by omega
      subst this; exact hk

/-- The loops of `__dot__matrix` only read and write memory: they cannot end
in a failed assertion. -/
theorem dot_loops_fault [Zero α] [Add α] [Mul α] (dest a b : Matrix) (h : Heap α) (e : Fault)
    (he : forN dest.rows (fun row =>
        forN dest.cols (fun col s0 => do
          let s1 ← s0.store dest.elements (MAT_AT dest row col) 0
          forN a.cols (fun i s => do
            let x ← s.load a.elements (MAT_AT a row i)
            let y ← s.load b.elements (MAT_AT b i col)
            let d ← s.load dest.elements (MAT_AT dest row col)
            s.store dest.elements (MAT_AT dest row col) (d + x * y)) s1)) h = .error e) :
    e = .undefined := by
  refine forN_fault (fun e => e = .undefined) _ _ (fun row s e he => ?_) h e he
  refine forN_fault (fun e => e = .undefined) _ _ (fun col s e he => ?_) s e he
  cases hst : s.store dest.elements (MAT_AT dest row col) (0 : α) with
  | error e' =>
    rw [hst] at he
    cases he
    exact Heap.store_fault hst
  | ok s1 =>
    rw [hst] at he
    refine forN_fault (fun e => e = .undefined) _ _ (fun i t e he => ?_) s1 e he
    cases hx : t.load a.elements (MAT_AT a row i) with
    | error e' => rw [hx] at he; cases he; exact Heap.load_fault hx
    | ok x =>
      cases hy : t.load b.elements (MAT_AT b i col) with
      | error e' => rw [hx, hy] at he; cases he; exact Heap.load_fault hy
      | ok y =>
        cases hd : t.load dest.elements (MAT_AT dest row col) with
        | error e' => rw [hx, hy, hd] at he; cases he; exact Heap.load_fault hd
        | ok d =>
          rw [hx, hy, hd] at he
          exact Heap.store_fault he

/-- The loops of `__copy__matrix` cannot end in a failed assertion either. -/
theorem copy_loops_fault (dest src : Matrix) (h : Heap α) (e : Fault)
    (he : forN dest.rows (fun row =>
        forN dest.cols (fun col s => do
          let v ← s.load src.elements (MAT_AT src row col)
          s.store dest.elements (MAT_AT dest row col) v)) h = .error e) :
    e = .undefined := by
  refine forN_fault (fun e => e = .undefined) _ _ (fun row s e he => ?_) h e he
  refine forN_fault (fun e => e = .undefined) _ _ (fun col s e he => ?_) s e he
  cases hv : s.load src.elements (MAT_AT src row col) with
  | error e' => rw [hv] at he; cases he; exact Heap.load_fault hv
  | ok v =>
    rw [hv] at he
    exact Heap.store_fault he

/-- When a shape condition of `__dot__matrix` is violated the call ends in
the failed assertion, whatever the heap. -/
theorem dot_mismatch [Zero α] [Add α] [Mul α] (dest a b : Matrix) (h : Heap α)
    (hm : a.cols ≠ b.rows ∨ dest.rows ≠ a.rows ∨ dest.cols ≠ b.cols) :
    __dot__matrix dest a b h = .error .assertion := by
  unfold __dot__matrix
  by_cases h1 : a.cols = b.rows
  · by_cases h2 : a.rows = dest.rows
    · have h3 : b.cols ≠ dest.cols := by
        rcases hm with hm | hm | hm
        · exact absurd h1 hm
        · exact absurd h2.symm hm
        · exact fun e => hm e.symm
      rw [if_neg (not_not.2 h1)]
      simp only
      rw [if_neg (not_not.2 h2), if_pos h3]
    · rw [if_neg (not_not.2 h1)]
      simp only
      rw [if_pos h2]
  · rw [if_pos h1]

/-- When the shape conditions of `__dot__matrix` hold the call does not end
in a failed assertion. -/
theorem dot_match [Zero α] [Add α] [Mul α] (dest a b : Matrix) (h : Heap α)
    (h1 : a.cols = b.rows) (h2 : dest.rows = a.rows) (h3 : dest.cols = b.cols) :
    __dot__matrix dest a b h ≠ .error .assertion := by
  intro he
  unfold __dot__matrix at he
  rw [if_neg (not_not.2 h1)] at he
  simp only at he
  rw [if_neg (not_not.2 h2.symm), if_neg (not_not.2 h3.symm)] at he
  cases dot_loops_fault dest a b h _ he

theorem copy_mismatch (dest src : Matrix) (h : Heap α)
    (hm : dest.rows ≠ src.rows ∨ dest.cols ≠ src.cols) :
    __copy__matrix dest src h = .error .assertion := by
  unfold __copy__matrix
  by_cases h1 : dest.rows = src.rows
  · rw [if_neg (not_not.2 h1), if_pos (hm.resolve_left (not_not.2 h1))]
  · rw [if_pos h1]

theorem copy_match (dest src : Matrix) (h : Heap α) (h1 : dest.rows = src.rows)
    (h2 : dest.cols = src.cols) : __copy__matrix dest src h ≠ .error .assertion := by
  intro he
  unfold __copy__matrix at he
  rw [if_neg (not_not.2 h1), if_neg (not_not.2 h2)] at he
  cases copy_loops_fault dest src h _ he

/-- The loops of `__sum__matrix` cannot end in a failed assertion: the
function has no assertion at all. -/
theorem sum_fault [Add α] (dest mat : Matrix) (h : Heap α) (e : Fault)
    (he : __sum__matrix dest mat h = .error e) : e = .undefined := by
  unfold __sum__matrix at he
  refine forN_fault (fun e => e = .undefined) _ _ (fun row s e he => ?_) h e he
  refine forN_fault (fun e => e = .undefined) _ _ (fun col s e he => ?_) s e he
  cases hd : s.load dest.elements (MAT_AT dest row col) with
  | error e' => rw [hd] at he; cases he; exact Heap.load_fault hd
  | ok d =>
    cases hm : s.load mat.elements (MAT_AT mat row col) with
    | error e' => rw [hd, hm] at he; cases he; exact Heap.load_fault hm
    | ok m =>
      rw [hd, hm] at he
      exact Heap.store_fault he

/-! ## The output dimensions of the correlation -/

/-- The output dimension for an input dimension `a` and a larger kernel
dimension `b`, as `size_t` arithmetic computes it. -/
theorem sizeT_subT_wrap {a b : Nat} (hlt : a < b) (hb : b < 2 ^ 64) :
    sizeT (subT a b + 1) = if b = a + 1 then 0 else 2 ^ 64 - (b - a - 1) := by
  unfold sizeT subT
  split <;> omega

/-- `__alloc__matrix` ends in a failed assertion only when `malloc` refuses
the request. -/
theorem alloc_fault [Zero α] (rows cols : Nat) (h : Heap α)
    (he : __alloc__matrix rows cols h = .error .assertion) :
    h.limit < sizeT (sizeT (rows * cols) * 4) := by
  by_contra hn
  have hb : sizeT (sizeT (rows * cols) * 4) ≤ h.limit := by omega
  obtain ⟨hp, -⟩ := h.malloc_spec _ hb
  unfold __alloc__matrix at he
  simp only [hp] at he
  rw [if_neg (Nat.succ_ne_zero _)] at he
  cases hf : forN rows (fun row => forN cols (fun col s =>
      s.store (h.blocks.length + 1)
        (MAT_AT ⟨rows, cols, cols, h.blocks.length + 1⟩ row col) (0 : α)))
      (h.malloc (sizeT (sizeT (rows * cols) * 4))).2 with
  | ok t => rw [hf] at he; cases he
  | error e =>
    rw [hf] at he
    have he' : e = .assertion := by cases he; rfl
    subst he'
    have := forN_fault (fun e => e = .undefined) _ _ (fun row s e he =>
      forN_fault (fun e => e = .undefined) _ _ (fun col s e he => Heap.store_fault he) s e he)
      _ _ hf
    cases this

/-- A sequenced computation fails either in its first part or in what follows it. -/
theorem bind_fault {β γ : Type} (x : Except Fault β) (f : β → Except Fault γ) (e : Fault)
    (he : (x >>= f) = .error e) : x = .error e ∨ ∃ a, x = .ok a ∧ f a = .error e := by
  cases x with
  | error e' => left; cases he; rfl
  | ok a => right; exact ⟨a, rfl, he⟩

/-- The loops of `__convolution__matrix` contain no assertion. -/
theorem conv_loops_fault [Zero α] [Add α] [Mul α] (A B C : Matrix) (R Cc : Nat) (h : Heap α)
    (e : Fault)
    (he : forN R (fun row =>
      forN Cc (fun col s => do
        let sum ← forN B.rows (fun i =>
          forN B.cols (fun j (acc : α) => do
            let x ← s.load A.elements (MAT_AT A (sizeT (row + i)) (sizeT (col + j)))
            let y ← s.load B.elements (MAT_AT B i j)
            pure (acc + x * y))) 0
        s.store C.elements (MAT_AT C row col) sum)) h = .error e) : e = .undefined := by
  refine forN_fault (fun e => e = .undefined) _ _ (fun row s e he =>
    forN_fault (fun e => e = .undefined) _ _ (fun col s e he => ?_) s e he) _ _ he
  rcases bind_fault _ _ _ he with h1 | ⟨v, -, h2⟩
  · refine forN_fault (fun e => e = .undefined) _ _ (fun i acc e he =>
      forN_fault (fun e => e = .undefined) _ _ (fun j acc e he => ?_) acc e he) _ _ h1
    rcases bind_fault _ _ _ he with h3 | ⟨x, -, h4⟩
    · exact Heap.load_fault h3
    · rcases bind_fault _ _ _ h4 with h5 | ⟨y, -, h6⟩
      · exact Heap.load_fault h5
      · cases h6
  · exact Heap.store_fault h2

/-- `__convolution__matrix` has no assertion of its own: it ends in a failed
assertion only when `malloc` refuses the request for the output buffer. -/
theorem conv_fault [Zero α] [Add α] [Mul α] (A B : Matrix) (h : Heap α)
    (he : __convolution__matrix A B h = .error .assertion) :
    h.limit < sizeT (sizeT (sizeT (subT A.rows B.rows + 1) *
      sizeT (subT A.cols B.cols + 1)) * 4) := by
  unfold __convolution__matrix at he
  rcases bind_fault _ _ _ he with h1 | ⟨r, -, h2⟩
  · exact alloc_fault _ _ h h1
  · rcases bind_fault _ _ _ h2 with h3 | ⟨t, -, h4⟩
    · cases conv_loops_fault A B r.1 _ _ r.2 _ h3
    · cases h4

/-- When an output dimension of `__convolution__matrix` comes out as `0` the
call allocates an empty matrix, runs no loop body and returns it. -/
theorem conv_empty [Zero α] [Add α] [Mul α] (h : Heap α) (A B : Matrix)
    (hz : sizeT (subT A.rows B.rows + 1) = 0 ∨ sizeT (subT A.cols B.cols + 1) = 0) :
    ∃ h', __convolution__matrix A B h =
      .ok (⟨sizeT (subT A.rows B.rows + 1), sizeT (subT A.cols B.cols + 1),
        sizeT (subT A.cols B.cols + 1), h.blocks.length + 1⟩, h') := by
  generalize hR : sizeT (subT A.rows B.rows + 1) = R at hz
  generalize hC : sizeT (subT A.cols B.cols + 1) = Cc at hz
  have hprod : R * Cc = 0 := by
    rcases hz with hz | hz <;> simp [hz]
  have hg : h.Grants R Cc := by
    unfold Heap.Grants
    rw [hprod]
    exact ⟨by norm_num, Nat.zero_le _⟩
  obtain ⟨h1, hrun1, -, -, -, -, hw1, -⟩ := alloc_run h R Cc hg
  obtain ⟨h2, hrun2, -⟩ := fill_run h1 ⟨R, Cc, Cc, h.blocks.length + 1⟩ hw1
    (fun row col s => do
      let sum ← forN B.rows (fun i =>
        forN B.cols (fun j (acc : α) => do
          let x ← s.load A.elements (MAT_AT A (sizeT (row + i)) (sizeT (col + j)))
          let y ← s.load B.elements (MAT_AT B i j)
          pure (acc + x * y))) 0
      s.store (h.blocks.length + 1) (MAT_AT ⟨R, Cc, Cc, h.blocks.length + 1⟩ row col) sum)
    (fun _ _ => (0 : α)) (by
      intro r hr c hc s _
      exfalso
      have hr' : r < R := hr
      have hc' : c < Cc := hc
      rcases hz with hz | hz <;> omega)
  refine ⟨h2, ?_⟩
  simp only [__convolution__matrix, hR, hC, hrun1]
  exact (congrArg (fun x : Except Fault (Heap α) => x >>= fun t => pure
    ((⟨R, Cc, Cc, h.blocks.length + 1⟩ : Matrix), t)) hrun2).trans rfl

/-! ## Construction from a buffer -/

/-- What `__init__matrix` does with a source buffer that holds the values `S`
in a block of the heap, when the request is granted: the result is a
`rows x cols` matrix in a fresh block whose element `(r, c)` is
`S (r * cols + c)`, and the earlier blocks are as they were. -/
theorem init_run [Zero α] (h : Heap α) (rows cols src : Nat) (S : Nat → α)
    (hg : h.Grants rows cols) (hsrc : src ≠ 0) (hlive : src ≤ h.blocks.length)
    (hS : ∀ i, i < rows * cols → h.cell src i = some (S i)) :
    ∃ h', __init__matrix rows cols src h = .ok (⟨rows, cols, cols, h.blocks.length + 1⟩, h') ∧
      h.Extends h' ∧ h'.blocks.length = h.blocks.length + 1 ∧
      (⟨rows, cols, cols, h.blocks.length + 1⟩ : Matrix).Holds h'
        (fun r c => S (r * cols + c)) := by
  obtain ⟨h1, hrun1, hl1, hj1, hlen1, -, hw1, hf1⟩ := alloc_run h rows cols hg
  have hsz : rows * cols < 2 ^ 64 := by have := hg.1; omega
  have hne : src ≠ h.blocks.length + 1 := by omega
  have hat : ∀ r c, r < rows → c < cols →
      MAT_AT ⟨rows, cols, cols, h.blocks.length + 1⟩ r c = r * cols + c :=
    fun r c hr hc => @MAT_AT_eq ⟨rows, cols, cols, h.blocks.length + 1⟩
      (Nat.le_refl _) hsz r c hr hc
  have hcell : ∀ i, i < rows * cols → (h1.cell (h.blocks.length + 1) i).isSome := by
    intro i hi
    have hc0 : 0 < cols := by
      rcases Nat.eq_zero_or_pos cols with h0 | h0
      · rw [h0] at hi; simp at hi
      · exact h0
    have hr : i / cols < rows := Nat.div_lt_of_lt_mul (by rw [Nat.mul_comm]; exact hi)
    have hc : i % cols < cols := Nat.mod_lt _ hc0
    have hw := hw1.2.2 (i / cols) hr (i % cols) hc
    rw [Heap.elem, hat _ _ hr hc] at hw
    have hi' : i / cols * cols + i % cols = i := by
      rw [Nat.mul_comm]; exact Nat.div_add_mod i cols
    rw [hi'] at hw
    exact hw
  obtain ⟨h2, hrun2, hmeta, hval, hframe⟩ := forN_writes h1 (h.blocks.length + 1) (rows * cols)
    (fun i s => do
      let v ← s.load src i
      s.store (h.blocks.length + 1) i v)
    (fun i j => j = i) (fun i _ => some (S i))
    (by intro i i' j hlt _ hj hj'; omega)
    (by
      intro i hi s _ hs
      have hld : s.load src i = .ok (S i) := by
        apply Heap.load_of_cell
        rw [hs src i (fun e => absurd e hne), hf1 src i hne]
        exact hS i hi
      obtain ⟨s', hst, hm, hv, hf⟩ := s.store_spec (h.blocks.length + 1) i (S i) (by
        rw [hs _ i (fun _ i' hi' => by omega)]
        exact hcell i hi)
      refine ⟨s', ?_, hm, fun j hj => by rw [hj]; exact hv, hf⟩
      show (s.load src i >>= fun v => s.store (h.blocks.length + 1) i v) = _
      rw [hld]
      exact hst)
  refine ⟨h2, ?_, ⟨hmeta.1.trans hl1, hmeta.2.1.trans hj1, ?_, ?_⟩, hmeta.2.2.trans hlen1, ?_⟩
  · simp only [__init__matrix, hrun1, sizeT_of_lt hsz]
    show (if src ≠ 0 then _ else _) = _
    rw [if_pos hsrc]
    exact (congrArg (fun x : Except Fault (Heap α) => x >>= fun t => pure
      ((⟨rows, cols, cols, h.blocks.length + 1⟩ : Matrix), t)) hrun2).trans rfl
  · rw [hmeta.2.2, hlen1]; omega
  · intro p j hp
    have hp' : p ≠ h.blocks.length + 1 := by omega
    rw [hframe p j (fun e => absurd e hp'), hf1 p j hp']
  · intro r hr c hc
    have hr' : r < rows := hr
    have hc' : c < cols := hc
    have hin : r * cols + c < rows * cols := by
      have h1 : (r + 1) * cols ≤ rows * cols := Nat.mul_le_mul_right _ hr'
      rw [Nat.add_mul, Nat.one_mul] at h1
      omega
    rw [Heap.elem, hat r c hr' hc']
    exact hval _ hin _ rfl

/-- Without a source buffer `__init__matrix` is `__alloc__matrix`. -/
theorem init_null [Zero α] (h : Heap α) (rows cols : Nat) :
    __init__matrix rows cols 0 h = __alloc__matrix rows cols h := by
  unfold __init__matrix
  cases __alloc__matrix rows cols h with
  | error e => rfl
  | ok r => rfl

/-! ## The stride of a constructed matrix -/

/-- A sequenced computation that returns has returned from both of its parts. -/
theorem bind_ok {β γ : Type} (x : Except Fault β) (f : β → Except Fault γ) (b : γ)
    (he : (x >>= f) = .ok b) : ∃ a, x = .ok a ∧ f a = .ok b := by
  cases x with
  | error e => cases he
  | ok a => exact ⟨a, rfl, he⟩

theorem init_stride [Zero α] {rows cols src : Nat} {h h' : Heap α} {m : Matrix}
    (hrun : __init__matrix rows cols src h = .ok (m, h')) : m.stride = m.cols := by
  unfold __init__matrix at hrun
  obtain ⟨r, hr, hk⟩ := bind_ok _ _ _ hrun
  have hs := alloc_shape (show __alloc__matrix _ _ _ = .ok (r.1, r.2) from hr)
  have hm : r.1 = m := by
    by_cases hsrc : src = 0
    · simp only [hsrc, ne_eq, not_true_eq_false, if_false] at hk
      cases hk
      rfl
    · simp only [ne_eq, hsrc, not_false_eq_true, if_true] at hk
      obtain ⟨t, -, ht⟩ := bind_ok _ _ _ hk
      cases ht
      rfl
  rw [← hm, hs.2.2, hs.2.1]

theorem random_stride [Zero α] [NatCast α] [Div α] {RAND_MAX rows cols : Nat} {g g' : Rand}
    {h h' : Heap α} {m : Matrix}
    (hrun : __init__random__matrix RAND_MAX rows cols g h = .ok (m, g', h')) :
    m.stride = m.cols := by
  unfold __init__random__matrix at hrun
  obtain ⟨r, hr, hk⟩ := bind_ok _ _ _ hrun
  have hs := alloc_shape (show __alloc__matrix _ _ _ = .ok (r.1, r.2) from hr)
  obtain ⟨t, -, ht⟩ := bind_ok _ _ _ hk
  cases ht
  rw [hs.2.2, hs.2.1]

theorem identity_stride [Zero α] [One α] {n : Nat} {h h' : Heap α} {m : Matrix}
    (hrun : __identity__matrix n h = .ok (m, h')) : m.stride = m.cols := by
  unfold __identity__matrix at hrun
  obtain ⟨r, hr, hk⟩ := bind_ok _ _ _ hrun
  have hs := alloc_shape (show __alloc__matrix _ _ _ = .ok (r.1, r.2) from hr)
  obtain ⟨t, -, ht⟩ := bind_ok _ _ _ hk
  cases ht
  rw [hs.2.2, hs.2.1]

theorem conv_stride [Zero α] [Add α] [Mul α] {A B : Matrix} {h h' : Heap α} {m : Matrix}
    (hrun : __convolution__matrix A B h = .ok (m, h')) : m.stride = m.cols := by
  unfold __convolution__matrix at hrun
  obtain ⟨r, hr, hk⟩ := bind_ok _ _ _ hrun
  have hs := alloc_shape (show __alloc__matrix _ _ _ = .ok (r.1, r.2) from hr)
  obtain ⟨t, -, ht⟩ := bind_ok _ _ _ hk
  cases ht
  rw [hs.2.2, hs.2.1]

/-- The `dest` of `__multiply__matrix`, once set, is a matrix that
`__alloc__matrix` returned. -/
theorem multiplyStep_stride [Zero α] [Add α] [Mul α] (args : List Matrix) (i : Nat)
    (a b : MulState α) (ha : ∀ d, a.dest = some d → d.stride = d.cols)
    (hstep : multiplyStep args i a = .ok b) : ∀ d, b.dest = some d → d.stride = d.cols := by
  unfold multiplyStep at hstep
  cases hx : args[i]? with
  | none => rw [hx] at hstep; cases hstep
  | some a1 =>
    rw [hx] at hstep
    by_cases hi : i = 0
    · simp only [hi, if_true] at hstep
      cases hstep
      exact ha
    · simp only [hi, if_false] at hstep
      cases h0 : a.a0 with
      | none => rw [h0] at hstep; cases hstep
      | some a0 =>
        rw [h0] at hstep
        by_cases hc : a0.cols = a1.rows
        · simp only [ne_eq, hc, not_true_eq_false, if_false] at hstep
          obtain ⟨r, hr, hk⟩ := bind_ok _ _ _ hstep
          have hs := alloc_shape (show __alloc__matrix _ _ _ = .ok (r.1, r.2) from hr)
          obtain ⟨t, -, ht⟩ := bind_ok _ _ _ hk
          cases ht
          intro d hd
          cases hd
          rw [hs.2.2, hs.2.1]
        · simp only [ne_eq, hc, not_false_eq_true, if_true] at hstep
          cases hstep

theorem multiply_stride [Zero α] [Add α] [Mul α] {num_args : Int} {args : List Matrix}
    {h h' : Heap α} {m : Matrix}
    (hrun : __multiply__matrix num_args args h = .ok (m, h')) : m.stride = m.cols := by
  unfold __multiply__matrix at hrun
  obtain ⟨st, hst, hk⟩ := bind_ok _ _ _ hrun
  have hinv := forN_ok_inv (fun st : MulState α => ∀ d, st.dest = some d → d.stride = d.cols)
    _ _ (fun i a b ha hs => multiplyStep_stride args i a b ha hs) _ _
    (by intro d hd; cases hd) hst
  cases hd : st.dest with
  | none => rw [hd] at hk; cases hk
  | some d =>
    rw [hd] at hk
    cases hk
    exact hinv _ hd

/-! ## Where the chained product stops -/

theorem forN_congr {σ : Type} (n : Nat) (body body' : Nat → σ → Except Fault σ) (s : σ)
    (hb : ∀ i, i < n → ∀ t, body i t = body' i t) : forN n body s = forN n body' s := by
  induction n with
  | zero => rfl
  | succ n ih =>
    rw [forN_succ, forN_succ, ih (fun i hi => hb i (by omega))]
    cases forN n body' s with
    | error e => rfl
    | ok t => exact hb n (by omega) t

/-- The shapes of `m0 :: rest` fit when every adjacent pair does. -/
theorem compatible_adjacent (rest : List Matrix) : ∀ m0 : Matrix,
    (Compatible m0.cols rest ↔ ∀ i a b, (m0 :: rest)[i]? = some a →
      (m0 :: rest)[i + 1]? = some b → a.cols = b.rows) := by
  induction rest with
  | nil =>
    intro m0
    refine ⟨fun _ i a b _ hb => ?_, fun _ => trivial⟩
    simp at hb
  | cons m ms ih =>
    intro m0
    constructor
    · intro hc i a b ha hb
      cases i with
      | zero =>
        simp only [List.getElem?_cons_zero, Option.some.injEq, Nat.zero_add,
          List.getElem?_cons_succ] at ha hb
        rw [← ha, ← hb]
        exact hc.1
      | succ i =>
        simp only [List.getElem?_cons_succ] at ha hb
        exact (ih m).1 hc.2 i a b ha (by simpa using hb)
    · intro hall
      refine ⟨hall 0 m0 m rfl (by simp), (ih m).2 (fun i a b ha hb => ?_)⟩
      exact hall (i + 1) a b (by simpa using ha) (by simpa using hb)

/-- The running product after `k` steps has the columns of the argument at index `k`. -/
theorem lastCols_take (rest : List Matrix) : ∀ (m0 a : Matrix) (k : Nat),
    (m0 :: rest)[k]? = some a → lastCols m0.cols (rest.take k) = a.cols := by
  induction rest with
  | nil =>
    intro m0 a k ha
    cases k with
    | zero =>
      simp only [List.getElem?_cons_zero, Option.some.injEq] at ha
      rw [← ha]; rfl
    | succ k => simp at ha
  | cons m ms ih =>
    intro m0 a k ha
    cases k with
    | zero =>
      simp only [List.getElem?_cons_zero, Option.some.injEq] at ha
      rw [← ha]; rfl
    | succ k =>
      simp only [List.getElem?_cons_succ] at ha
      exact ih m a k ha

/-- The first `k + 1` arguments fit when every adjacent pair before index `k` does. -/
theorem compatible_take (rest : List Matrix) (m0 : Matrix) (k : Nat)
    (hall : ∀ i, i < k → ∀ a b, (m0 :: rest)[i]? = some a → (m0 :: rest)[i + 1]? = some b →
      a.cols = b.rows) : Compatible m0.cols (rest.take k) := by
  refine (compatible_adjacent (rest.take k) m0).2 (fun i a b ha hb => ?_)
  have hb' : (rest.take k)[i]? = some b := by simpa using hb
  have hik : i < k := by
    by_contra hn
    rw [List.getElem?_take_eq_none (by omega)] at hb'
    cases hb'
  refine hall i hik a b ?_ ?_
  · cases i with
    | zero => simpa using ha
    | succ j =>
      have ha' : (rest.take k)[j]? = some a := by simpa using ha
      rw [List.getElem?_take, if_pos (by omega)] at ha'
      simpa using ha'
  · rw [List.getElem?_take, if_pos hik] at hb'
    simpa using hb'

/-- The loop of `__multiply__matrix` looks at the arguments up to index `k`
only during its first `k + 1` rounds. -/
theorem multiply_loop_take [Zero α] [Add α] [Mul α] (m0 : Matrix) (ms : List Matrix) (k : Nat)
    (s : MulState α) :
    forN (k + 1) (multiplyStep (m0 :: ms)) s =
      forN (k + 1) (multiplyStep (m0 :: ms.take k)) s := by
  apply forN_congr
  intro i hi t
  have hget : (m0 :: ms)[i]? = (m0 :: ms.take k)[i]? := by
    cases i with
    | zero => simp only [List.getElem?_cons_zero]
    | succ j =>
      simp only [List.getElem?_cons_succ]
      rw [List.getElem?_take, if_pos (by omega)]
  simp only [multiplyStep, hget]

/-- With stored operands and granted requests, when the arguments up to index
`k` fit and the next one, `b`, does not fit the running product: the loop of
`__multiply__matrix` computes the product of the arguments up to index `k`
in its first `k + 1` rounds, and the next round fails the assertion. -/
theorem multiply_stops [Zero α] [Add α] [Mul α] (h : Heap α) (m0 : Matrix)
    (A0 : Nat → Nat → α) (rest : List (Matrix × (Nat → Nat → α))) (k : Nat) (b : Matrix)
    (h0 : m0.Stored h A0) (hst : ∀ x ∈ rest, x.1.Stored h x.2)
    (hg : ∀ x ∈ rest, h.Grants m0.rows x.1.cols)
    (hpre : Compatible m0.cols ((rest.take k).map Prod.fst))
    (hb : (rest.map Prod.fst)[k]? = some b)
    (hbad : lastCols m0.cols ((rest.take k).map Prod.fst) ≠ b.rows) :
    ∃ cur h1, chainFold m0 ((rest.take k).map Prod.fst) h = .ok (cur, h1) ∧ h.Extends h1 ∧
      cur.rows = m0.rows ∧ cur.Holds h1 (chainVal m0.cols A0 (rest.take k)) ∧
      forN (k + 1) (multiplyStep (m0 :: rest.map Prod.fst)) (⟨none, none, h⟩ : MulState α) =
        .ok ⟨some cur, if k = 0 then none else some cur, h1⟩ ∧
      multiplyStep (m0 :: rest.map Prod.fst) (k + 1)
        (⟨some cur, if k = 0 then none else some cur, h1⟩ : MulState α) = .error .assertion ∧
      ∀ n, k + 2 ≤ n →
        forN n (multiplyStep (m0 :: rest.map Prod.fst)) (⟨none, none, h⟩ : MulState α) =
          .error .assertion := by
  obtain ⟨cur, h1, hrun, hext, hrows, hcols, hval, -⟩ := chainFold_run (rest.take k) h m0 A0 h0
    (fun x hx => hst x (List.mem_of_mem_take hx)) hpre
    (fun x hx => hg x (List.mem_of_mem_take hx))
  have hk : k < (rest.map Prod.fst).length := (List.getElem?_eq_some.1 hb).1
  have htk : (rest.map Prod.fst).take k = (rest.take k).map Prod.fst := by
    rw [List.map_take]
  have hloop : forN (k + 1) (multiplyStep (m0 :: rest.map Prod.fst))
      (⟨none, none, h⟩ : MulState α) =
      .ok ⟨some cur, if k = 0 then none else some cur, h1⟩ := by
    rw [multiply_loop_take, htk, multiply_loop m0 _ h hpre k (by
      rw [← htk, List.length_take]; omega)]
    rw [← htk, List.take_take, Nat.min_self, htk, hrun]
    rfl
  have hstep : multiplyStep (m0 :: rest.map Prod.fst) (k + 1)
      (⟨some cur, if k = 0 then none else some cur, h1⟩ : MulState α) = .error .assertion := by
    have hb' : (m0 :: rest.map Prod.fst)[k + 1]? = some b := by simpa using hb
    have hne : cur.cols ≠ b.rows := by rw [hcols]; exact hbad
    simp only [multiplyStep, hb', Nat.succ_ne_zero, if_false, ne_eq, hne, not_false_eq_true,
      if_true]
  refine ⟨cur, h1, hrun, hext, hrows, hval.2, hloop, hstep, ?_⟩
  apply forN_fault_mono _ _ _ (k + 2)
  rw [forN_succ, hloop]
  exact hstep

/-! ## Random fill -/

/-- A loop that threads the generator along with the heap, every round
taking `k` draws, is the loop over the heap alone in which round `i` starts at
draw `u + i * k`. -/
theorem forN_counter (draws : Nat → Nat) (k n : Nat)
    (body : Nat → Rand × Heap α → Except Fault (Rand × Heap α))
    (body' : Nat → Nat → Heap α → Except Fault (Heap α))
    (hb : ∀ i u s, body i (⟨draws, u⟩, s) =
      (body' u i s).map (fun s' => ((⟨draws, u + k⟩ : Rand), s'))) :
    ∀ u s, forN n body (⟨draws, u⟩, s) =
      (forN n (fun i s => body' (u + i * k) i s) s).map
        (fun s' => ((⟨draws, u + n * k⟩ : Rand), s')) := by
  induction n with
  | zero =>
    intro u s
    rw [forN_zero, forN_zero, Nat.zero_mul]
    rfl
  | succ n ih =>
    intro u s
    rw [forN_succ, forN_succ, ih u s]
    cases forN n (fun i s => body' (u + i * k) i s) s with
    | error e => rfl
    | ok t =>
      show body n (⟨draws, u + n * k⟩, t) = _
      rw [hb, Nat.succ_mul, Nat.add_assoc]
      rfl

/-- What `__init__random__matrix` does when the request is granted: element
`(r, c)` of the result is the quotient of draw number `r * cols + c` (counted
from the generator's position at the call) by `RAND_MAX`, and the generator
has advanced by `rows * cols` draws. -/
theorem random_run [Zero α] [NatCast α] [Div α] (h : Heap α) (RAND_MAX rows cols : Nat)
    (g : Rand) (hg : h.Grants rows cols) :
    ∃ h', __init__random__matrix RAND_MAX rows cols g h =
        .ok (⟨rows, cols, cols, h.blocks.length + 1⟩, ⟨g.draws, g.used + rows * cols⟩, h') ∧
      h.Extends h' ∧
      (⟨rows, cols, cols, h.blocks.length + 1⟩ : Matrix).Holds h'
        (fun r c => (g.draws (g.used + r * cols + c) : α) / (RAND_MAX : α)) := by
  obtain ⟨h1, hrun1, hl1, hj1, hlen1, -, hw1, hf1⟩ := alloc_run h rows cols hg
  obtain ⟨h2, hrun2, hmeta, hval, hframe⟩ := fill_run h1 ⟨rows, cols, cols, h.blocks.length + 1⟩
    hw1
    (fun row col s => s.store (h.blocks.length + 1)
      (MAT_AT ⟨rows, cols, cols, h.blocks.length + 1⟩ row col)
      ((g.draws (g.used + row * cols + col * 1) : α) / (RAND_MAX : α)))
    (fun r c => (g.draws (g.used + r * cols + c) : α) / (RAND_MAX : α)) (by
      intro r hr c hc s _
      show s.store _ (MAT_AT _ r c) _ = _
      rw [@MAT_AT_eq _ hw1.1 hw1.2.1 r c hr hc, Nat.mul_one])
  have hinner : ∀ row u (s : Heap α),
      forN cols (fun col (st : Rand × Heap α) => do
        let v : α × Rand := _random_float_ RAND_MAX st.1
        let s ← st.2.store (h.blocks.length + 1)
          (MAT_AT ⟨rows, cols, cols, h.blocks.length + 1⟩ row col) v.1
        pure (v.2, s)) (⟨g.draws, u⟩, s) =
      (forN cols (fun col s => s.store (h.blocks.length + 1)
        (MAT_AT ⟨rows, cols, cols, h.blocks.length + 1⟩ row col)
        ((g.draws (u + col * 1) : α) / (RAND_MAX : α))) s).map
        (fun s' => ((⟨g.draws, u + cols * 1⟩ : Rand), s')) := by
    intro row u s
    refine forN_counter g.draws 1 cols _ (fun u col s => s.store (h.blocks.length + 1)
        (MAT_AT ⟨rows, cols, cols, h.blocks.length + 1⟩ row col)
        ((g.draws u : α) / (RAND_MAX : α))) ?_ u s
    intro i u s
    show (s.store _ _ _ >>= fun s' => pure _) = _
    cases s.store (h.blocks.length + 1)
      (MAT_AT ⟨rows, cols, cols, h.blocks.length + 1⟩ row i)
      ((g.draws u : α) / (RAND_MAX : α)) with
    | error e => rfl
    | ok t => rfl
  have houter := forN_counter g.draws cols rows
    (fun row => forN cols (fun col (st : Rand × Heap α) => do
        let v : α × Rand := _random_float_ RAND_MAX st.1
        let s ← st.2.store (h.blocks.length + 1)
          (MAT_AT ⟨rows, cols, cols, h.blocks.length + 1⟩ row col) v.1
        pure (v.2, s)))
    (fun u row s => forN cols (fun col s => s.store (h.blocks.length + 1)
        (MAT_AT ⟨rows, cols, cols, h.blocks.length + 1⟩ row col)
        ((g.draws (u + col * 1) : α) / (RAND_MAX : α))) s)
    (by
      intro i u s
      refine (hinner i u s).trans ?_
      rw [Nat.mul_one])
    g.used h1
  refine ⟨h2, ?_, ⟨hmeta.1.trans hl1, hmeta.2.1.trans hj1, ?_, ?_⟩, hval⟩
  · simp only [__init__random__matrix, hrun1]
    show (forN rows _ (g, h1) >>= fun st => pure _) = _
    rw [show g = (⟨g.draws, g.used⟩ : Rand) from rfl] at houter ⊢
    rw [houter, hrun2]
    rfl
  · rw [hmeta.2.2, hlen1]; omega
  · intro p j hp
    have hp' : p ≠ h.blocks.length + 1 := by omega
    rw [hframe p j (fun e => absurd e hp'), hf1 p j hp']

/-! ## The claims -/

/-- Claim C1: when `a.cols = b.rows`, `dest.rows = a.rows`, `dest.cols = b.cols`
and `dest` has a buffer of its own, `__dot__matrix(dest, a, b)` succeeds and
leaves in every `dest[i][j]` the sum over `k < a.cols` of `a[i][k] * b[k][j]`
(accumulated from `0` in increasing `k`), whatever `dest` held before. -/
theorem dot_matrix_product [Zero α] [Add α] [Mul α] (h : Heap α) (dest a b : Matrix)
    (A B : Nat → Nat → α) (hab : a.cols = b.rows) (hda : dest.rows = a.rows)
    (hdb : dest.cols = b.cols) (hA : a.Holds h A) (hB : b.Holds h B)
    (hW : dest.Writable h) (hna : a.elements ≠ dest.elements)
    (hnb : b.elements ≠ dest.elements) :
    ∃ h', __dot__matrix dest a b h = .ok h' ∧
      ∀ i, i < dest.rows → ∀ j, j < dest.cols →
        h'.elem dest i j = some (sumTo a.cols (fun k => A i k * B k j)) := by
  obtain ⟨h', hrun, -, hval, -⟩ := dot_run h dest a b A B hab hda hdb hA hB hW hna hnb
  exact ⟨h', hrun, hval⟩

theorem dot_matrix_product_witness :
    ∃ h', __dot__matrix (sq2 3) (sq2 1) (sq2 2) heap3 = .ok h' ∧
      ∀ i, i < 2 → ∀ j, j < 2 →
        h'.elem (sq2 3) i j =
          some (sumTo 2 (fun k => rowMajor 2 [1, 2, 3, 4] i k * rowMajor 2 [5, 6, 7, 8] k j)) :=
  dot_matrix_product heap3 (sq2 3) (sq2 1) (sq2 2)
    (rowMajor 2 [1, 2, 3, 4]) (rowMajor 2 [5, 6, 7, 8])
    rfl rfl rfl (by unfold Matrix.Holds; decide) (by unfold Matrix.Holds; decide)
    (by unfold Matrix.Writable; decide) (by decide) (by decide)

/-- Claim C2: on an ordered sequence `m0, m1, ..., mn` of two or more stored
matrices with `m_i.cols = m_(i+1).rows` (allocations granted),
`__multiply__matrix` is the left-to-right fold of the pairwise dot product,
each step computed into a freshly allocated zeroed destination; it returns a
matrix in a new block, of shape `m0.rows x mn.cols`, holding the product
`((m0 . m1) . m2) ... . mn` of the values. -/
theorem multiply_is_left_fold [Zero α] [Add α] [Mul α] (h : Heap α) (m0 : Matrix)
    (A0 : Nat → Nat → α) (x1 : Matrix × (Nat → Nat → α))
    (rest : List (Matrix × (Nat → Nat → α))) (hn : rest.length + 2 < 2 ^ 31)
    (h0 : m0.Stored h A0) (hst : ∀ x ∈ x1 :: rest, x.1.Stored h x.2)
    (hc : Compatible m0.cols ((x1 :: rest).map Prod.fst))
    (hg : ∀ x ∈ x1 :: rest, h.Grants m0.rows x.1.cols) :
    __multiply__matrix ((rest.length + 2 : Nat) : Int) (m0 :: (x1 :: rest).map Prod.fst) h =
        chainFold m0 ((x1 :: rest).map Prod.fst) h ∧
      ∃ dest h', __multiply__matrix ((rest.length + 2 : Nat) : Int)
          (m0 :: (x1 :: rest).map Prod.fst) h = .ok (dest, h') ∧
        dest.rows = m0.rows ∧ dest.cols = lastCols m0.cols ((x1 :: rest).map Prod.fst) ∧
        dest.stride = dest.cols ∧ h.blocks.length < dest.elements ∧ h.Extends h' ∧
        dest.Holds h' (chainVal m0.cols A0 (x1 :: rest)) := by
  have heq := multiply_eq_chainFold m0 x1.1 (rest.map Prod.fst) h (by simpa using hn)
    (by simpa using hc)
  simp only [List.length_map] at heq
  obtain ⟨dest, h', hrun, hext, hrows, hcols, hval, hfresh⟩ :=
    chainFold_run (x1 :: rest) h m0 A0 h0 hst hc hg
  have hf := hfresh (List.cons_ne_nil _ _)
  exact ⟨heq, dest, h', heq.trans hrun, hrows, hcols, hf.2, hf.1, hext, hval.2⟩

theorem multiply_is_left_fold_witness :
    __multiply__matrix 3 [sq2 1, sq2 2, sq2 3] heap3 =
        chainFold (sq2 1) [sq2 2, sq2 3] heap3 ∧
      ∃ dest h', __multiply__matrix 3 [sq2 1, sq2 2, sq2 3] heap3 = .ok (dest, h') ∧
        dest.rows = 2 ∧ dest.cols = 2 ∧ dest.stride = dest.cols ∧ 3 < dest.elements ∧
        heap3.Extends h' ∧
        dest.Holds h' (chainVal 2 (rowMajor 2 [1, 2, 3, 4])
          [(sq2 2, rowMajor 2 [5, 6, 7, 8]), (sq2 3, rowMajor 2 [9, 9, 9, 9])]) :=
  multiply_is_left_fold heap3 (sq2 1) (rowMajor 2 [1, 2, 3, 4])
    (sq2 2, rowMajor 2 [5, 6, 7, 8]) [(sq2 3, rowMajor 2 [9, 9, 9, 9])] (by decide)
    ⟨by decide, by unfold Matrix.Holds; decide⟩
    (by
      intro x hx
      simp only [List.mem_cons, List.mem_singleton, List.not_mem_nil, or_false] at hx
      rcases hx with rfl | rfl
      · exact ⟨by decide, by unfold Matrix.Holds; decide⟩
      · exact ⟨by decide, by unfold Matrix.Holds; decide⟩)
    ⟨rfl, rfl, trivial⟩
    (by
      intro x hx
      simp only [List.mem_cons, List.mem_singleton, List.not_mem_nil, or_false] at hx
      rcases hx with rfl | rfl
      · exact ⟨by decide, by decide⟩
      · exact ⟨by decide, by decide⟩)

/-- Claim C3, amended: when the kernel fits inside the input (and the request
for the output buffer is granted), `__convolution__matrix(input, kernel)`
returns a matrix of shape `(input.rows - kernel.rows + 1) x
(input.cols - kernel.cols + 1)` whose element `(r, c)` is the sum over
`i < kernel.rows`, `j < kernel.cols` of `input[r+i][c+j] * kernel[i][j]`,
the kernel unflipped, accumulated from `0` in row-major order, whatever the
element arithmetic; for a `3 x 3` input whose entries `v` all have
`v * 0 = 0` (the finite ones of a `float`) and the kernel `[[1,0],[0,0]]`
the `2 x 2` output has `output[r][c] = input[r][c]`, in an arithmetic with
`0 + x = x`, `x + 0 = x` and `x * 1 = x`. -/
theorem convolution_correlates [Zero α] [One α] [Add α] [Mul α] (h : Heap α)
    (input kernel : Matrix) (I K : Nat → Nat → α) (hIr : input.rows < 2 ^ 64)
    (hIc : input.cols < 2 ^ 64) (hr : kernel.rows ≤ input.rows)
    (hc : kernel.cols ≤ input.cols) (hI : input.Stored h I) (hK : kernel.Stored h K)
    (hg : h.Grants (input.rows - kernel.rows + 1) (input.cols - kernel.cols + 1)) :
    ∃ out h', __convolution__matrix input kernel h = .ok (out, h') ∧
      out.rows = input.rows - kernel.rows + 1 ∧ out.cols = input.cols - kernel.cols + 1 ∧
      (∀ r, r < out.rows → ∀ c, c < out.cols → h'.elem out r c =
        some (sum2 kernel.rows kernel.cols (fun i j => I (r + i) (c + j) * K i j))) ∧
      ((∀ x : α, 0 + x = x) → (∀ x : α, x + 0 = x) → (∀ x : α, x * 1 = x) →
        input.rows = 3 → input.cols = 3 → kernel.rows = 2 → kernel.cols = 2 →
        K 0 0 = 1 → K 0 1 = 0 → K 1 0 = 0 → K 1 1 = 0 →
        (∀ r, r < 3 → ∀ c, c < 3 → I r c * 0 = 0) →
        out.rows = 2 ∧ out.cols = 2 ∧
          ∀ r, r < 2 → ∀ c, c < 2 → h'.elem out r c = some (I r c)) := by
  obtain ⟨h', hrun, -, -, hst⟩ := conv_run h input kernel I K hIr hIc hr hc hI hK hg
  refine ⟨_, h', hrun, rfl, rfl, hst.2, ?_⟩
  intro h0a ha0 hm1 hir hic hkr hkc k00 k01 k10 k11 hfin
  refine ⟨by show input.rows - kernel.rows + 1 = 2; omega,
    by show input.cols - kernel.cols + 1 = 2; omega, fun r hr' c hc' => ?_⟩
  have := hst.2 r (by show r < input.rows - kernel.rows + 1; omega) c
    (by show c < input.cols - kernel.cols + 1; omega)
  rw [this, hkr, hkc]
  simp only [sum2, accTo, k00, k01, k10, k11, Nat.add_zero, hm1, h0a,
    hfin r (by omega) (c + 1) (by omega), hfin (r + 1) (by omega) c (by omega),
    hfin (r + 1) (by omega) (c + 1) (by omega), ha0]

/-- On the input `1..9` the kernel `[[1,0],[0,0]]` gives back the top left
`2 x 2` corner of the input. -/
theorem convolution_correlates_witness :
    ∃ out h', __convolution__matrix ⟨3, 3, 3, 1⟩ (sq2 2) heapConv = .ok (out, h') ∧
      out.rows = 2 ∧ out.cols = 2 ∧
      ∀ r, r < 2 → ∀ c, c < 2 →
        h'.elem out r c = some (rowMajor 3 [1, 2, 3, 4, 5, 6, 7, 8, 9] r c) := by
  obtain ⟨out, h', hrun, -, -, -, hunit⟩ := convolution_correlates heapConv ⟨3, 3, 3, 1⟩ (sq2 2)
    (rowMajor 3 [1, 2, 3, 4, 5, 6, 7, 8, 9]) (rowMajor 2 [1, 0, 0, 0]) (by decide) (by decide)
    (by decide) (by decide) ⟨by decide, by unfold Matrix.Holds; decide⟩
    ⟨by decide, by unfold Matrix.Holds; decide⟩ ⟨by decide, by decide⟩
  obtain ⟨hr, hc, hval⟩ := hunit Int.zero_add Int.add_zero Int.mul_one rfl rfl rfl rfl
    rfl rfl rfl rfl (fun r _ c _ => Int.mul_zero _)
  exact ⟨out, h', hrun, hr, hc, hval⟩

/-- Against C3 as written: a `3 x 3` input of `float`s with an infinite entry
at `(0, 1)` and the kernel `[[1,0],[0,0]]`.  The window of output `(0, 0)`
multiplies the infinity by `0`, which is NaN, so `output[0][0]` is NaN while
`input[0][0]` is `1`. -/
theorem convolution_unit_kernel_inf :
    heapInfConv.elem ⟨3, 3, 3, 1⟩ 0 0 = some (.fin 1) ∧
    (sq2 2).Holds heapInfConv (fun r c => if r = 0 ∧ c = 0 then (1 : F32) else 0) ∧
    ∃ out h', __convolution__matrix ⟨3, 3, 3, 1⟩ (sq2 2) heapInfConv = .ok (out, h') ∧
      out.rows = 2 ∧ out.cols = 2 ∧ h'.elem out 0 0 = some .nan ∧
      h'.elem out 0 0 ≠ heapInfConv.elem ⟨3, 3, 3, 1⟩ 0 0 :=
  ⟨by rfl, by unfold Matrix.Holds; decide, sq2 3,
    ⟨[[.fin 1, .inf false, .fin 3, .fin 4, .fin 5, .fin 6, .fin 7, .fin 8, .fin 9],
      [.fin 1, .fin 0, .fin 0, .fin 0],
      [.nan, .inf false, .fin 4, .fin 5]], 2 ^ 32, fun _ => .nan⟩,
    by rfl, rfl, rfl, by rfl, by decide⟩

/-- Claim C4, amended: for a stored matrix `M` with `r` rows and `c` columns
whose entries `v` all have `0 * v = 0` and `v * 0 = 0` (the finite ones of a
`float`), in an arithmetic with `0 + x = x`, `x + 0 = x`, `1 * x = x` and
`x * 1 = x`, the chained product of the identity of size `r` with `M` and
the chained product of `M` with the identity of size `c` both have the shape
of `M` and every element equal to that of `M`. -/
theorem multiply_identity [Zero α] [One α] [Add α] [Mul α] (h : Heap α) (M : Matrix)
    (Mv : Nat → Nat → α) (h0a : ∀ x : α, 0 + x = x) (ha0 : ∀ x : α, x + 0 = x)
    (h1m : ∀ x : α, 1 * x = x) (hm1 : ∀ x : α, x * 1 = x)
    (hfin : ∀ i, i < M.rows → ∀ j, j < M.cols → 0 * Mv i j = 0 ∧ Mv i j * 0 = 0)
    (hM : M.Stored h Mv) (hgr : h.Grants M.rows M.rows) (hgc : h.Grants M.cols M.cols)
    (hg : h.Grants M.rows M.cols) :
    (∃ I h1 P h2, __identity__matrix M.rows h = .ok (I, h1) ∧
      __multiply__matrix 2 [I, M] h1 = .ok (P, h2) ∧ P.rows = M.rows ∧ P.cols = M.cols ∧
      M.Holds h2 Mv ∧
      ∀ i, i < M.rows → ∀ j, j < M.cols → h2.elem P i j = some (Mv i j)) ∧
    (∃ I h1 P h2, __identity__matrix M.cols h = .ok (I, h1) ∧
      __multiply__matrix 2 [M, I] h1 = .ok (P, h2) ∧ P.rows = M.rows ∧ P.cols = M.cols ∧
      M.Holds h2 Mv ∧
      ∀ i, i < M.rows → ∀ j, j < M.cols → h2.elem P i j = some (Mv i j)) := by
  constructor
  · obtain ⟨h1, hrun1, hext1, -, hI, -⟩ := identity_run h M.rows hgr
    obtain ⟨h2, hrun2, hext2, -, hP⟩ := multiply2_run h1 ⟨M.rows, M.rows, M.rows, _⟩ M _ Mv rfl
      hI (hM.extend hext1) ⟨hg.1, by rw [hext1.1]; exact hg.2⟩
    refine ⟨_, h1, _, h2, hrun1, hrun2, rfl, rfl, ((hM.extend hext1).extend hext2).2, ?_⟩
    intro i hi j hj
    rw [hP.2 i hi j hj]
    show some (sumTo M.rows (fun k => (if i = k then (1 : α) else 0) * Mv k j)) = _
    rw [sumTo_single h0a ha0 M.rows i _ (fun k hk hne => by
      show (if i = k then (1 : α) else 0) * Mv k j = 0
      rw [if_neg (Ne.symm hne)]
      exact (hfin k hk j hj).1), if_pos hi, if_pos rfl, h1m]
  · obtain ⟨h1, hrun1, hext1, -, hI, -⟩ := identity_run h M.cols hgc
    obtain ⟨h2, hrun2, hext2, -, hP⟩ := multiply2_run h1 M ⟨M.cols, M.cols, M.cols, _⟩ Mv _ rfl
      (hM.extend hext1) hI ⟨hg.1, by rw [hext1.1]; exact hg.2⟩
    refine ⟨_, h1, _, h2, hrun1, hrun2, rfl, rfl, ((hM.extend hext1).extend hext2).2, ?_⟩
    intro i hi j hj
    rw [hP.2 i hi j hj]
    show some (sumTo M.cols (fun k => Mv i k * (if k = j then (1 : α) else 0))) = _
    rw [sumTo_single h0a ha0 M.cols j _ (fun k hk hne => by
      show Mv i k * (if k = j then (1 : α) else 0) = 0
      rw [if_neg hne]
      exact (hfin i hi k hk).2), if_pos hj, if_pos rfl, hm1]

/-- The matrix `[[1,2],[3,4]]` times the identity of size `2`, on either side. -/
theorem multiply_identity_witness :
    (∃ I h1 P h2, __identity__matrix 2 heap3 = .ok (I, h1) ∧
      __multiply__matrix 2 [I, sq2 1] h1 = .ok (P, h2) ∧ P.rows = 2 ∧ P.cols = 2 ∧
      (sq2 1).Holds h2 (rowMajor 2 [1, 2, 3, 4]) ∧
      ∀ i, i < 2 → ∀ j, j < 2 → h2.elem P i j = some (rowMajor 2 [1, 2, 3, 4] i j)) ∧
    (∃ I h1 P h2, __identity__matrix 2 heap3 = .ok (I, h1) ∧
      __multiply__matrix 2 [sq2 1, I] h1 = .ok (P, h2) ∧ P.rows = 2 ∧ P.cols = 2 ∧
      (sq2 1).Holds h2 (rowMajor 2 [1, 2, 3, 4]) ∧
      ∀ i, i < 2 → ∀ j, j < 2 → h2.elem P i j = some (rowMajor 2 [1, 2, 3, 4] i j)) :=
  multiply_identity heap3 (sq2 1) (rowMajor 2 [1, 2, 3, 4]) Int.zero_add Int.add_zero
    Int.one_mul Int.mul_one (fun _ _ _ _ => ⟨Int.zero_mul _, Int.mul_zero _⟩)
    ⟨by decide, by unfold Matrix.Holds; decide⟩ ⟨by decide, by decide⟩
    ⟨by decide, by decide⟩ ⟨by decide, by decide⟩

/-- Against C4 as written: the `float` matrix `M = [[inf, 1], [1, 1]]` times the
identity of size `2`.  Element `(0, 1)` of the product is
`0 + inf * 0 + 1 * 1`, which is NaN, while `M[0][1]` is `1`. -/
theorem multiply_identity_inf :
    heapInf.elem (sq2 1) 0 1 = some (.fin 1) ∧
    ∃ I h1 P h2, __identity__matrix 2 heapInf = .ok (I, h1) ∧
      __multiply__matrix 2 [sq2 1, I] h1 = .ok (P, h2) ∧ P.rows = 2 ∧ P.cols = 2 ∧
      h2.elem P 0 1 = some .nan ∧ h2.elem P 0 1 ≠ heapInf.elem (sq2 1) 0 1 :=
  ⟨by rfl, sq2 2,
    ⟨[[.inf false, .fin 1, .fin 1, .fin 1], [.fin 1, .fin 0, .fin 0, .fin 1]], 2 ^ 32,
      fun _ => .nan⟩, sq2 3,
    ⟨[[.inf false, .fin 1, .fin 1, .fin 1], [.fin 1, .fin 0, .fin 0, .fin 1],
      [.inf false, .nan, .fin 1, .fin 1]], 2 ^ 32, fun _ => .nan⟩,
    by rfl, by rfl, rfl, rfl, by rfl, by decide⟩

/-- Claim C5: for every stored matrix `M` and scalar `k`, in an element
arithmetic with `0 + x = x`, correlating `M` with the `1 x 1` kernel `[[k]]`
gives a matrix of `M`'s shape, and copying `M` into a freshly allocated
matrix of the same shape and scaling the copy by `k` gives a matrix with
the same elements: both hold `M[r][c] * k` at every position. -/
theorem correlate_unit_kernel [AddZeroClass α] [Mul α] (h : Heap α) (M : Matrix)
    (ks kp : Nat) (Mv Kv : Nat → Nat → α) (k : α) (hMr : M.rows < 2 ^ 64)
    (hMc : M.cols < 2 ^ 64) (hM : M.Stored h Mv)
    (hK : (⟨1, 1, ks, kp⟩ : Matrix).Stored h Kv) (hk : Kv 0 0 = k)
    (hg : h.Grants M.rows M.cols) :
    ∃ out h1 new h2 h3 h4, __convolution__matrix M ⟨1, 1, ks, kp⟩ h = .ok (out, h1) ∧
      out.rows = M.rows ∧ out.cols = M.cols ∧
      __alloc__matrix M.rows M.cols h = .ok (new, h2) ∧ new.rows = M.rows ∧
      new.cols = M.cols ∧ __copy__matrix new M h2 = .ok h3 ∧
      __scalar__multiply new k h3 = .ok h4 ∧
      ∀ r, r < M.rows → ∀ c, c < M.cols →
        h1.elem out r c = some (Mv r c * k) ∧ h4.elem new r c = some (Mv r c * k) ∧
        h1.elem out r c = h4.elem new r c := by
  obtain ⟨h1, hrun1, -, -, hout⟩ := conv_run_dims h M ⟨1, 1, ks, kp⟩ Mv Kv M.rows M.cols
    (sizeT_subT_one hMr) (sizeT_subT_one hMc) hMr hMc
    (fun r hr c hc i hi j hj => by
      have hi' : i < 1 := hi
      have hj' : j < 1 := hj
      exact ⟨by omega, by omega⟩) hM hK hg
  obtain ⟨h2, hrun2, -, -, -, -, hw2, hf2⟩ := alloc_run h M.rows M.cols hg
  have hne : M.elements ≠ h.blocks.length + 1 := by have := hM.1; omega
  obtain ⟨h3, hrun3, -, hval3, -⟩ := copy_run h2 ⟨M.rows, M.cols, M.cols, _⟩ M Mv rfl rfl hw2
    (hM.2.of_cells (fun j => hf2 _ j hne)) hne
  obtain ⟨h4, hrun4, -, hval4, -⟩ := scalar_run h3 ⟨M.rows, M.cols, M.cols, _⟩ k Mv
    ⟨hw2.1, hw2.2.1, fun r hr' c hc' => by rw [hval3 r hr' c hc']; rfl⟩ hval3
  refine ⟨_, h1, _, h2, h3, h4, hrun1, rfl, rfl, hrun2, rfl, rfl, hrun3, hrun4, ?_⟩
  intro r hr' c hc'
  have hconv : h1.elem ⟨M.rows, M.cols, M.cols, h.blocks.length + 1⟩ r c =
      some (Mv r c * k) := by
    rw [hout.2 r hr' c hc']
    show some (sum2 1 1 (fun i j => Mv (r + i) (c + j) * Kv i j)) = _
    simp only [sum2, accTo, Nat.add_zero, hk, zero_add]
  exact ⟨hconv, hval4 r hr' c hc', hconv.trans (hval4 r hr' c hc').symm⟩

theorem correlate_unit_kernel_witness :
    ∃ out h1 new h2 h3 h4, __convolution__matrix (sq2 1) ⟨1, 1, 1, 2⟩ heapK = .ok (out, h1) ∧
      out.rows = 2 ∧ out.cols = 2 ∧
      __alloc__matrix 2 2 heapK = .ok (new, h2) ∧ new.rows = 2 ∧
      new.cols = 2 ∧ __copy__matrix new (sq2 1) h2 = .ok h3 ∧
      __scalar__multiply new 3 h3 = .ok h4 ∧
      ∀ r, r < 2 → ∀ c, c < 2 →
        h1.elem out r c = some (rowMajor 2 [1, 2, 3, 4] r c * 3) ∧
        h4.elem new r c = some (rowMajor 2 [1, 2, 3, 4] r c * 3) ∧
        h1.elem out r c = h4.elem new r c :=
  correlate_unit_kernel heapK (sq2 1) 1 2 (rowMajor 2 [1, 2, 3, 4]) (rowMajor 1 [3]) 3
    (by decide) (by decide)
    ⟨by decide, by unfold Matrix.Holds; decide⟩ ⟨by decide, by unfold Matrix.Holds; decide⟩
    rfl ⟨by decide, by decide⟩

/-- Claim C7: for `dest` and `src` of identical shape with separate buffers,
`__copy__matrix(dest, src)` succeeds, afterwards every `dest[r][c]` equals
`src[r][c]` and `src` is unchanged; and mutating `dest` in place afterwards,
by `__scalar__multiply(dest, k)` or by a store to any of its elements,
leaves every element of `src` unchanged. -/
theorem copy_matrix_deep [Mul α] (h : Heap α) (dest src : Matrix) (S : Nat → Nat → α)
    (hrows : dest.rows = src.rows) (hcols : dest.cols = src.cols) (hW : dest.Writable h)
    (hS : src.Holds h S) (hne : src.elements ≠ dest.elements) :
    ∃ h1, __copy__matrix dest src h = .ok h1 ∧ dest.Holds h1 S ∧ src.Holds h1 S ∧
      (∀ k : α, ∃ h2, __scalar__multiply dest k h1 = .ok h2 ∧ src.Holds h2 S ∧
        dest.Holds h2 (fun r c => S r c * k)) ∧
      (∀ r, r < dest.rows → ∀ c, c < dest.cols → ∀ v : α,
        ∃ h2, h1.store dest.elements (MAT_AT dest r c) v = .ok h2 ∧ src.Holds h2 S) := by
  obtain ⟨h1, hrun, -, hval, hframe⟩ := copy_run h dest src S hrows hcols hW hS hne
  have hS1 : src.Holds h1 S := hS.of_cells (fun j => hframe _ j (fun e => absurd e hne))
  have hW1 : dest.Writable h1 :=
    ⟨hW.1, hW.2.1, fun r hr c hc => by rw [hval r hr c hc]; rfl⟩
  refine ⟨h1, hrun, hval, hS1, ?_, ?_⟩
  · intro k
    obtain ⟨h2, hrun2, -, hval2, hframe2⟩ := scalar_run h1 dest k S hW1 hval
    exact ⟨h2, hrun2, hS1.of_cells (fun j => hframe2 _ j (fun e => absurd e hne)), hval2⟩
  · intro r hr c hc v
    obtain ⟨h2, hst, -, -, hf⟩ := h1.store_spec dest.elements (MAT_AT dest r c) v
      (hW1.2.2 r hr c hc)
    exact ⟨h2, hst, hS1.of_cells (fun j => hf _ j (fun e => absurd e hne))⟩

theorem copy_matrix_deep_witness :
    ∃ h1, __copy__matrix (sq2 3) (sq2 1) heap3 = .ok h1 ∧
      (sq2 3).Holds h1 (rowMajor 2 [1, 2, 3, 4]) ∧ (sq2 1).Holds h1 (rowMajor 2 [1, 2, 3, 4]) ∧
      (∀ k : Int, ∃ h2, __scalar__multiply (sq2 3) k h1 = .ok h2 ∧
        (sq2 1).Holds h2 (rowMajor 2 [1, 2, 3, 4]) ∧
        (sq2 3).Holds h2 (fun r c => rowMajor 2 [1, 2, 3, 4] r c * k)) ∧
      (∀ r, r < 2 → ∀ c, c < 2 → ∀ v : Int,
        ∃ h2, h1.store 3 (MAT_AT (sq2 3) r c) v = .ok h2 ∧
          (sq2 1).Holds h2 (rowMajor 2 [1, 2, 3, 4])) :=
  copy_matrix_deep heap3 (sq2 3) (sq2 1) (rowMajor 2 [1, 2, 3, 4]) rfl rfl
    (by unfold Matrix.Writable; decide) (by unfold Matrix.Holds; decide) (by decide)

/-- Claim C8, amended: for `dest` and `other` of identical shape, where
`other` has a buffer of its own or is `dest` itself,
`__sum__matrix(dest, other)` succeeds and afterwards every `dest[r][c]` is
the old `dest[r][c]` plus the old `other[r][c]`; `other` is unchanged when
its buffer is not that of `dest`. -/
theorem sum_matrix_adds [Add α] (h : Heap α) (dest other : Matrix) (D O : Nat → Nat → α)
    (hrows : dest.rows = other.rows) (hcols : dest.cols = other.cols) (hW : dest.Writable h)
    (hD : dest.Holds h D) (hO : other.Holds h O)
    (hne : other.elements ≠ dest.elements ∨ other = dest) :
    ∃ h', __sum__matrix dest other h = .ok h' ∧
      (∀ r, r < dest.rows → ∀ c, c < dest.cols → h'.elem dest r c = some (D r c + O r c)) ∧
      (other.elements ≠ dest.elements → other.Holds h' O) := by
  obtain ⟨h', hrun, -, hval, hframe⟩ := sum_run h dest other D O (Nat.le_of_eq hrows.symm)
    (Nat.le_of_eq hcols.symm) hW hD hO hne
  refine ⟨h', hrun, ?_, fun hsep => hO.of_cells (fun j => hframe _ j hsep)⟩
  intro r hr c hc
  have := hval r hr c hc
  dsimp only at this
  rwa [if_pos ⟨hrows ▸ hr, hcols ▸ hc⟩] at this

theorem sum_matrix_adds_witness :
    ∃ h', __sum__matrix (sq2 1) (sq2 2) heap3 = .ok h' ∧
      (∀ r, r < 2 → ∀ c, c < 2 → h'.elem (sq2 1) r c =
        some (rowMajor 2 [1, 2, 3, 4] r c + rowMajor 2 [5, 6, 7, 8] r c)) ∧
      ((sq2 2).elements ≠ (sq2 1).elements → (sq2 2).Holds h' (rowMajor 2 [5, 6, 7, 8])) :=
  sum_matrix_adds heap3 (sq2 1) (sq2 2) (rowMajor 2 [1, 2, 3, 4]) (rowMajor 2 [5, 6, 7, 8])
    rfl rfl (by unfold Matrix.Writable; decide) (by unfold Matrix.Holds; decide)
    (by unfold Matrix.Holds; decide) (Or.inl (by decide))

/-- Claim C8 as stated fails when `other` is `dest`: adding the matrix
`[[1,2],[3,4]]` to itself changes `other`, whose element `(0, 0)` goes from
`1` to `2`. -/
theorem sum_matrix_self_changes_other :
    (sq2 1).rows = (sq2 1).rows ∧ (sq2 1).cols = (sq2 1).cols ∧
      heap3.elem (sq2 1) 0 0 = some 1 ∧
      ∃ h', __sum__matrix (sq2 1) (sq2 1) heap3 = .ok h' ∧ h'.elem (sq2 1) 0 0 = some 2 ∧
        h'.elem (sq2 1) 0 0 ≠ heap3.elem (sq2 1) 0 0 :=
  ⟨rfl, rfl, by decide,
    ⟨[[2, 4, 6, 8], [5, 6, 7, 8], [9, 9, 9, 9]], 2 ^ 32, fun _ => 7⟩, by rfl, by decide,
    by decide⟩

/-- Claim C9, amended: for a matrix holding `M` and a factor `x`,
`__scalar__multiply(M, x)` succeeds and every element becomes the old
`M[r][c] * x`, whatever the element arithmetic; with factor `1` the matrix
is unchanged, in an arithmetic with `v * 1 = v`; with factor `0` every
element becomes `M[r][c] * 0`, which is `0` for the elements `v` with
`v * 0 = 0` (the finite ones of a `float`). -/
theorem scalar_multiply_scales [Zero α] [One α] [Mul α] (h : Heap α) (mat : Matrix) (x : α)
    (M : Nat → Nat → α) (hW : mat.Writable h) (hM : mat.Holds h M) :
    (∃ h', __scalar__multiply mat x h = .ok h' ∧
      ∀ r, r < mat.rows → ∀ c, c < mat.cols → h'.elem mat r c = some (M r c * x)) ∧
    ((∀ v : α, v * 1 = v) → ∃ h', __scalar__multiply mat 1 h = .ok h' ∧ mat.Holds h' M) ∧
    (∃ h', __scalar__multiply mat 0 h = .ok h' ∧
      ∀ r, r < mat.rows → ∀ c, c < mat.cols →
        h'.elem mat r c = some (M r c * 0) ∧ (M r c * 0 = 0 → h'.elem mat r c = some 0)) := by
  refine ⟨?_, fun h1 => ?_, ?_⟩
  · obtain ⟨h', hrun, -, hval, -⟩ := scalar_run h mat x M hW hM
    exact ⟨h', hrun, hval⟩
  · obtain ⟨h', hrun, -, hval, -⟩ := scalar_run h mat 1 M hW hM
    refine ⟨h', hrun, fun r hr c hc => ?_⟩
    have := hval r hr c hc
    dsimp only at this
    rw [this, h1]
  · obtain ⟨h', hrun, -, hval, -⟩ := scalar_run h mat 0 M hW hM
    refine ⟨h', hrun, fun r hr c hc => ?_⟩
    have := hval r hr c hc
    dsimp only at this
    exact ⟨this, fun h0 => by rw [this, h0]⟩

/-- Scaling `[[1,1],[1,1]]` by `2` gives `[[2,2],[2,2]]`, by `1` leaves it as
it is and by `0` zeroes it. -/
theorem scalar_multiply_scales_witness :
    (∃ h', __scalar__multiply (sq2 1) 2 heapOnes = .ok h' ∧
      ∀ r, r < 2 → ∀ c, c < 2 → h'.elem (sq2 1) r c = some 2) ∧
    (∃ h', __scalar__multiply (sq2 1) 1 heapOnes = .ok h' ∧
      (sq2 1).Holds h' (rowMajor 2 [1, 1, 1, 1])) ∧
    (∃ h', __scalar__multiply (sq2 1) 0 heapOnes = .ok h' ∧
      (sq2 1).Holds h' (fun _ _ => 0)) := by
  obtain ⟨⟨h', hrun, hval⟩, hone, h0, hrun0, hzero⟩ := scalar_multiply_scales heapOnes (sq2 1) 2
    (rowMajor 2 [1, 1, 1, 1]) (by unfold Matrix.Writable; decide)
    (by unfold Matrix.Holds; decide)
  refine ⟨⟨h', hrun, fun r hr c hc => ?_⟩, hone Int.mul_one,
    h0, hrun0, fun r hr c hc => (hzero r hr c hc).2 (Int.mul_zero _)⟩
  rw [hval r hr c hc]
  have h2 : ∀ r, r < 2 → ∀ c, c < 2 → rowMajor 2 [1, 1, 1, 1] r c * 2 = 2 := by decide
  rw [h2 r hr c hc]

/-- Against C9 as written: scaling the `float` matrix `[[inf, 1]]` by `0`
gives `[[NaN, 0]]`: the infinite element does not become `0`. -/
theorem scalar_multiply_zero_inf :
    heapInf.elem ⟨1, 2, 2, 1⟩ 0 0 = some (.inf false) ∧
    ∃ h', __scalar__multiply ⟨1, 2, 2, 1⟩ 0 heapInf = .ok h' ∧
      h'.elem ⟨1, 2, 2, 1⟩ 0 0 = some .nan ∧ h'.elem ⟨1, 2, 2, 1⟩ 0 1 = some 0 ∧
      h'.elem ⟨1, 2, 2, 1⟩ 0 0 ≠ some 0 :=
  ⟨by rfl, ⟨[[.nan, .fin 0, .fin 1, .fin 1]], 2 ^ 32, fun _ => .nan⟩, by rfl, by rfl, by rfl,
    by decide⟩

/-- Claim C10: for every size `n` (the request for the buffer granted),
`__identity__matrix(n)` returns an `n x n` matrix whose element `(i, j)` is
`1` when `i = j` and `0` otherwise. -/
theorem identity_matrix_entries [Zero α] [One α] (h : Heap α) (n : Nat)
    (hg : h.Grants n n) :
    ∃ m h', __identity__matrix n h = .ok (m, h') ∧ m.rows = n ∧ m.cols = n ∧
      ∀ i, i < n → ∀ j, j < n → h'.elem m i j = some (if i = j then (1 : α) else 0) := by
  obtain ⟨h', hrun, -, -, hst, -⟩ := identity_run h n hg
  exact ⟨_, h', hrun, rfl, rfl, hst.2⟩

theorem identity_matrix_entries_witness :
    ∃ m h', __identity__matrix 3 heap3 = .ok (m, h') ∧ m.rows = 3 ∧ m.cols = 3 ∧
      ∀ i, i < 3 → ∀ j, j < 3 → h'.elem m i j = some (if i = j then (1 : Int) else 0) :=
  identity_matrix_entries heap3 3 ⟨by decide, by decide⟩

/-- Claim C13: `__dot__matrix(dest, a, b)` ends in a failed assertion if and
only if `a.cols != b.rows` or `dest.rows != a.rows` or `dest.cols != b.cols`.
The failure is decided by the shapes alone, the same on every heap (also on
one where `dest` points nowhere and a store would be undefined behaviour), so
no element of `dest` is written before it; when the three conditions hold
the call does not fail, and on operands that are stored properly it returns. -/
theorem dot_fails_iff [Zero α] [Add α] [Mul α] (dest a b : Matrix) (h : Heap α) :
    (__dot__matrix dest a b h = .error .assertion ↔
      (a.cols ≠ b.rows ∨ dest.rows ≠ a.rows ∨ dest.cols ≠ b.cols)) ∧
    ((a.cols ≠ b.rows ∨ dest.rows ≠ a.rows ∨ dest.cols ≠ b.cols) →
      ∀ h2 : Heap α, __dot__matrix dest a b h2 = .error .assertion) ∧
    (a.cols = b.rows → dest.rows = a.rows → dest.cols = b.cols →
      __dot__matrix dest a b h ≠ .error .assertion ∧
      ∀ A B : Nat → Nat → α, a.Holds h A → b.Holds h B → dest.Writable h →
        a.elements ≠ dest.elements → b.elements ≠ dest.elements →
        ∃ h', __dot__matrix dest a b h = .ok h') := by
  refine ⟨⟨fun he => ?_, dot_mismatch dest a b h⟩, fun hm h2 => dot_mismatch dest a b h2 hm,
    fun h1 h2 h3 => ⟨dot_match dest a b h h1 h2 h3, fun A B hA hB hW hna hnb => ?_⟩⟩
  · by_contra hn
    simp only [not_or, not_not] at hn
    exact dot_match dest a b h hn.1 hn.2.1 hn.2.2 he
  · obtain ⟨h', hrun, -⟩ := dot_run h dest a b A B h1 h2 h3 hA hB hW hna hnb
    exact ⟨h', hrun⟩

/-- Claim C15: `__copy__matrix(dest, src)` ends in a failed assertion if and
only if `dest.rows != src.rows` or `dest.cols != src.cols`.  The failure is
decided by the shapes alone, the same on every heap (also on one where
`dest` points nowhere), so no element of `dest` is modified before it. -/
theorem copy_fails_iff (dest src : Matrix) (h : Heap α) :
    (__copy__matrix dest src h = .error .assertion ↔
      (dest.rows ≠ src.rows ∨ dest.cols ≠ src.cols)) ∧
    ((dest.rows ≠ src.rows ∨ dest.cols ≠ src.cols) →
      ∀ h2 : Heap α, __copy__matrix dest src h2 = .error .assertion) := by
  refine ⟨⟨fun he => ?_, copy_mismatch dest src h⟩, fun hm h2 => copy_mismatch dest src h2 hm⟩
  by_contra hn
  simp only [not_or, not_not] at hn
  exact copy_match dest src h hn.1 hn.2 he

/-- Claim C16 fails on the code: `__sum__matrix` never ends in a failed
assertion.  With `dest = [[1,2],[3,4]]` and the `1 x 2` matrix `[[5,6]]` it
returns normally, having changed the first row of `dest` to `[6,8]`; with a
`3 x 2` second argument and a `1 x 2` `dest` it runs past the buffer of
`dest`, which is undefined behaviour and not an explicit failure. -/
theorem sum_mismatch_not_rejected :
    (∀ (β : Type) [Add β] (dest mat : Matrix) (h : Heap β),
      __sum__matrix dest mat h ≠ .error .assertion) ∧
    (sq2 1).rows ≠ (⟨1, 2, 2, 2⟩ : Matrix).rows ∧
    __sum__matrix (sq2 1) ⟨1, 2, 2, 2⟩ heap3 =
      .ok ⟨[[6, 8, 3, 4], [5, 6, 7, 8], [9, 9, 9, 9]], 2 ^ 32, fun _ => 7⟩ ∧
    __sum__matrix ⟨1, 2, 2, 3⟩ ⟨3, 2, 2, 2⟩ heap3 = .error .undefined :=
  ⟨fun _ _ dest mat h he => Fault.noConfusion (sum_fault dest mat h _ he), by decide, by rfl,
    by rfl⟩

/-- Claim C19: with `a = [[1,2],[3,4]]` and `b` the identity of size `2`,
`__dot__matrix` with `dest` sharing the buffer of `a` passes the shape
assertions and returns, but leaves the buffer all zero, whereas the product
computed into a destination of its own is `[[1,2],[3,4]]`. -/
theorem dot_alias_wrong :
    ∃ b h0 h1 d h2 h3, __identity__matrix 2 heapA = .ok (b, h0) ∧
      __dot__matrix (sq2 1) (sq2 1) b h0 = .ok h1 ∧
      (∀ r, r < 2 → ∀ c, c < 2 → h1.elem (sq2 1) r c = some 0) ∧
      __alloc__matrix 2 2 h0 = .ok (d, h2) ∧ __dot__matrix d (sq2 1) b h2 = .ok h3 ∧
      (∀ r, r < 2 → ∀ c, c < 2 → h3.elem d r c = some (rowMajor 2 [1, 2, 3, 4] r c)) ∧
      h1.elem (sq2 1) 0 0 ≠ h3.elem d 0 0 :=
  ⟨sq2 2, ⟨[[1, 2, 3, 4], [1, 0, 0, 1]], 2 ^ 32, fun _ => 7⟩,
    ⟨[[0, 0, 0, 0], [1, 0, 0, 1]], 2 ^ 32, fun _ => 7⟩, sq2 3,
    ⟨[[1, 2, 3, 4], [1, 0, 0, 1], [0, 0, 0, 0]], 2 ^ 32, fun _ => 7⟩,
    ⟨[[1, 2, 3, 4], [1, 0, 0, 1], [1, 2, 3, 4]], 2 ^ 32, fun _ => 7⟩,
    by rfl, by rfl, by decide, by rfl, by rfl, by decide, by decide⟩

/-- Claim C20: `__sum__matrix` runs over the shape of its second argument.
When `other` fits inside `dest` (and has a buffer of its own or is `dest`
itself) the call returns, `dest[r][c]` becomes the old `dest[r][c]` plus
`other[r][c]` at exactly the positions `r < other.rows`, `c < other.cols`,
each matrix addressed with its own stride, and every other element of `dest`
is as before. -/
theorem sum_matrix_over_other [Add α] (h : Heap α) (dest other : Matrix)
    (D O : Nat → Nat → α) (hrows : other.rows ≤ dest.rows) (hcols : other.cols ≤ dest.cols)
    (hW : dest.Writable h) (hD : dest.Holds h D) (hO : other.Holds h O)
    (hne : other.elements ≠ dest.elements ∨ other = dest) :
    ∃ h', __sum__matrix dest other h = .ok h' ∧
      ∀ r, r < dest.rows → ∀ c, c < dest.cols →
        h'.elem dest r c =
          some (if r < other.rows ∧ c < other.cols then D r c + O r c else D r c) := by
  obtain ⟨h', hrun, -, hval, -⟩ := sum_run h dest other D O hrows hcols hW hD hO hne
  exact ⟨h', hrun, hval⟩

/-- Adding the `2 x 1` matrix `[[5],[7]]`, stored with stride `2`, to
`[[1,2],[3,4]]` changes the first column only. -/
theorem sum_matrix_over_other_witness :
    ∃ h', __sum__matrix (sq2 1) ⟨2, 1, 2, 2⟩ heap3 = .ok h' ∧
      ∀ r, r < 2 → ∀ c, c < 2 →
        h'.elem (sq2 1) r c =
          some (if r < 2 ∧ c < 1 then rowMajor 2 [1, 2, 3, 4] r c + rowMajor 2 [5, 6, 7, 8] r c
            else rowMajor 2 [1, 2, 3, 4] r c) :=
  sum_matrix_over_other heap3 (sq2 1) ⟨2, 1, 2, 2⟩ (rowMajor 2 [1, 2, 3, 4])
    (rowMajor 2 [5, 6, 7, 8]) (by decide) (by decide) (by unfold Matrix.Writable; decide)
    (by unfold Matrix.Holds; decide) (by unfold Matrix.Holds; decide) (Or.inl (by decide))

/-- Claim C18, as the code has it: when the kernel is larger than the input in
a dimension (`a < b`, both below `2 ^ 64`), the output dimension
`a - b + 1` computed in `size_t` is `0` when `b = a + 1` and the huge value
`2 ^ 64 - (b - a - 1)` otherwise, which is non-zero and exceeds the input's
dimension. `__convolution__matrix` checks neither dimension: in the first
case it returns an empty matrix, and the only assertion it can fail is the
one on the result of `malloc`. -/
theorem conv_dim_underflow [Zero α] [Add α] [Mul α] (A B : Matrix) (h : Heap α) (a b : Nat)
    (hdim : (a = A.rows ∧ b = B.rows) ∨ (a = A.cols ∧ b = B.cols))
    (hlt : a < b) (hb : b < 2 ^ 64) :
    sizeT (subT a b + 1) = (if b = a + 1 then 0 else 2 ^ 64 - (b - a - 1)) ∧
    (b ≠ a + 1 → sizeT (subT a b + 1) ≠ 0 ∧ a < sizeT (subT a b + 1)) ∧
    (b = a + 1 → ∃ out h', __convolution__matrix A B h = .ok (out, h') ∧
      out.rows = sizeT (subT A.rows B.rows + 1) ∧ out.cols = sizeT (subT A.cols B.cols + 1) ∧
      (out.rows = 0 ∨ out.cols = 0)) ∧
    (__convolution__matrix A B h = .error .assertion →
      h.limit < sizeT (sizeT (sizeT (subT A.rows B.rows + 1) *
        sizeT (subT A.cols B.cols + 1)) * 4)) := by
  have hw := sizeT_subT_wrap hlt hb
  refine ⟨hw, ?_, ?_, conv_fault A B h⟩
  · intro hne
    rw [hw, if_neg hne]
    omega
  · intro he
    rw [if_pos he] at hw
    have hz : sizeT (subT A.rows B.rows + 1) = 0 ∨ sizeT (subT A.cols B.cols + 1) = 0 := by
      rcases hdim with ⟨ha, hb'⟩ | ⟨ha, hb'⟩
      · left; rw [← ha, ← hb']; exact hw
      · right; rw [← ha, ← hb']; exact hw
    obtain ⟨h', hrun⟩ := conv_empty h A B hz
    exact ⟨_, h', hrun, rfl, rfl, hz⟩

/-- The amended statement of C18 at a `1 × 1` input and a `3 × 1` kernel: the
row count comes out as `2 ^ 64 - 1`. -/
theorem conv_dim_underflow_witness :
    sizeT (subT 1 3 + 1) = 2 ^ 64 - 1 ∧
    __convolution__matrix ⟨1, 1, 1, 1⟩ ⟨3, 1, 1, 2⟩ heap3 = .error .assertion := by
  have hw := conv_dim_underflow (⟨1, 1, 1, 1⟩ : Matrix) ⟨3, 1, 1, 2⟩ heap3 1 3
    (Or.inl ⟨rfl, rfl⟩) (by decide) (by norm_num)
  exact ⟨by rw [hw.1]; rfl, by rfl⟩

/-- Against C18 as written: with a kernel one row taller than the input the row
count underflows to `0`, not to a non-zero value, and the call returns an
empty matrix. -/
theorem conv_dim_underflow_zero :
    (⟨1, 1, 1, 1⟩ : Matrix).rows < (⟨2, 1, 1, 2⟩ : Matrix).rows ∧
    sizeT (subT 1 2 + 1) = 0 ∧
    ∃ h', __convolution__matrix ⟨1, 1, 1, 1⟩ ⟨2, 1, 1, 2⟩ heap3 = .ok (⟨0, 1, 1, 4⟩, h') := by
  refine ⟨by decide, by rfl, ?_⟩
  obtain ⟨h', hrun⟩ := conv_empty heap3 ⟨1, 1, 1, 1⟩ ⟨2, 1, 1, 2⟩ (Or.inl (by rfl))
  exact ⟨h', hrun⟩

/-- Claim C11: when the request is granted, `__alloc__matrix(rows, cols)`
returns a matrix with the requested `rows` and `cols`, `stride == cols`, and
every element `(r, c)` with `r < rows`, `c < cols` equal to `0`; and every
matrix returned by a construction operation (`__alloc__matrix`,
`__init__matrix`, `__init__random__matrix`, `__identity__matrix`,
`__convolution__matrix`, `__multiply__matrix`) has `stride == cols`. -/
theorem alloc_matrix_zeroed [Zero α] [One α] [Add α] [Mul α] [NatCast α] [Div α]
    (h : Heap α) (rows cols : Nat) (hg : h.Grants rows cols) :
    (∃ m h', __alloc__matrix rows cols h = .ok (m, h') ∧ m.rows = rows ∧ m.cols = cols ∧
      m.stride = cols ∧ ∀ r, r < rows → ∀ c, c < cols → h'.elem m r c = some (0 : α)) ∧
    (∀ (s : Heap α) n k m s', __alloc__matrix n k s = .ok (m, s') → m.stride = m.cols) ∧
    (∀ (s : Heap α) n k src m s', __init__matrix n k src s = .ok (m, s') →
      m.stride = m.cols) ∧
    (∀ (s : Heap α) RAND_MAX n k g m g' s',
      __init__random__matrix RAND_MAX n k g s = .ok (m, g', s') → m.stride = m.cols) ∧
    (∀ (s : Heap α) n m s', __identity__matrix n s = .ok (m, s') → m.stride = m.cols) ∧
    (∀ (s : Heap α) A B m s', __convolution__matrix A B s = .ok (m, s') →
      m.stride = m.cols) ∧
    (∀ (s : Heap α) num_args args m s', __multiply__matrix num_args args s = .ok (m, s') →
      m.stride = m.cols) := by
  obtain ⟨h', hrun, -, -, -, hz, -, -⟩ := alloc_run h rows cols hg
  refine ⟨⟨_, h', hrun, rfl, rfl, rfl, hz⟩, ?_, ?_, ?_, ?_, ?_, ?_⟩
  · intro s n k m s' hr
    have hs := alloc_shape hr
    rw [hs.2.2, hs.2.1]
  · intro s n k src m s' hr
    exact init_stride hr
  · intro s R n k g m g' s' hr
    exact random_stride hr
  · intro s n m s' hr
    exact identity_stride hr
  · intro s A B m s' hr
    exact conv_stride hr
  · intro s num_args args m s' hr
    exact multiply_stride hr

theorem alloc_matrix_zeroed_witness :
    ∃ m h', __alloc__matrix 2 3 heap3 = .ok (m, h') ∧ m.rows = 2 ∧ m.cols = 3 ∧
      m.stride = 3 ∧ ∀ r, r < 2 → ∀ c, c < 3 → h'.elem m r c = some (0 : Int) :=
  (alloc_matrix_zeroed heap3 2 3 ⟨by decide, by decide⟩).1

/-- Claim C12: for a source buffer that holds the values `S 0`, ...,
`S (rows * cols - 1)` in a block of the heap (and a granted request),
`__init__matrix(rows, cols, source)` returns a `rows x cols` matrix whose
element `(r, c)` is `S (r * cols + c)`, and every cell of the source is as it
was; with the source `NULL` every element of the result is `0`. -/
theorem init_matrix_copies [Zero α] (h : Heap α) (rows cols src : Nat) (S : Nat → α)
    (hg : h.Grants rows cols) (hsrc : src ≠ 0) (hlive : src ≤ h.blocks.length)
    (hS : ∀ i, i < rows * cols → h.cell src i = some (S i)) :
    (∃ m h', __init__matrix rows cols src h = .ok (m, h') ∧ m.rows = rows ∧ m.cols = cols ∧
      (∀ r, r < rows → ∀ c, c < cols → h'.elem m r c = some (S (r * cols + c))) ∧
      (∀ j, h'.cell src j = h.cell src j)) ∧
    (∃ m h', __init__matrix rows cols 0 h = .ok (m, h') ∧ m.rows = rows ∧ m.cols = cols ∧
      ∀ r, r < rows → ∀ c, c < cols → h'.elem m r c = some (0 : α)) := by
  obtain ⟨h', hrun, hext, -, hval⟩ := init_run h rows cols src S hg hsrc hlive hS
  obtain ⟨h0, hrun0, -, -, -, hz, -, -⟩ := alloc_run h rows cols hg
  exact ⟨⟨_, h', hrun, rfl, rfl, hval, fun j => hext.2.2.2 src j hlive⟩,
    ⟨_, h0, (init_null h rows cols).trans hrun0, rfl, rfl, hz⟩⟩

theorem init_matrix_copies_witness :
    (∃ m h', __init__matrix 2 2 2 heap3 = .ok (m, h') ∧ m.rows = 2 ∧ m.cols = 2 ∧
      (∀ r, r < 2 → ∀ c, c < 2 → h'.elem m r c = some ([5, 6, 7, 8].getD (r * 2 + c) 0)) ∧
      (∀ j, h'.cell 2 j = heap3.cell 2 j)) ∧
    (∃ m h', __init__matrix 2 2 0 heap3 = .ok (m, h') ∧ m.rows = 2 ∧ m.cols = 2 ∧
      ∀ r, r < 2 → ∀ c, c < 2 → h'.elem m r c = some (0 : Int)) :=
  init_matrix_copies heap3 2 2 2 (fun i => [5, 6, 7, 8].getD i 0) ⟨by decide, by decide⟩
    (by decide) (by decide) (by decide)

/-- Claim C14: on two or more stored matrices (every request for an
intermediate result granted), `__multiply__matrix` ends in a failed assertion
if and only if some adjacent pair of arguments has `a.cols != b.rows`; and at
the first such pair, at indices `k` and `k + 1`, the loop has computed the
product of the arguments up to index `k` in its first `k + 1` rounds (the
running product has the rows of the first argument, the columns of
argument `k`, and holds the left-to-right product of the values) and the next
round fails the assertion. -/
theorem multiply_fails_iff [Zero α] [Add α] [Mul α] (h : Heap α) (m0 : Matrix)
    (A0 : Nat → Nat → α) (x1 : Matrix × (Nat → Nat → α))
    (rest : List (Matrix × (Nat → Nat → α))) (hn : rest.length + 2 < 2 ^ 31)
    (h0 : m0.Stored h A0) (hst : ∀ x ∈ x1 :: rest, x.1.Stored h x.2)
    (hg : ∀ x ∈ x1 :: rest, h.Grants m0.rows x.1.cols) :
    (__multiply__matrix ((rest.length + 2 : Nat) : Int) (m0 :: (x1 :: rest).map Prod.fst) h =
        .error .assertion ↔
      ∃ i a b, (m0 :: (x1 :: rest).map Prod.fst)[i]? = some a ∧
        (m0 :: (x1 :: rest).map Prod.fst)[i + 1]? = some b ∧ a.cols ≠ b.rows) ∧
    (∀ k a b, (m0 :: (x1 :: rest).map Prod.fst)[k]? = some a →
      (m0 :: (x1 :: rest).map Prod.fst)[k + 1]? = some b → a.cols ≠ b.rows →
      (∀ i, i < k → ∀ a' b', (m0 :: (x1 :: rest).map Prod.fst)[i]? = some a' →
        (m0 :: (x1 :: rest).map Prod.fst)[i + 1]? = some b' → a'.cols = b'.rows) →
      ∃ cur h1,
        forN (k + 1) (multiplyStep (m0 :: (x1 :: rest).map Prod.fst))
          (⟨none, none, h⟩ : MulState α) =
            .ok ⟨some cur, if k = 0 then none else some cur, h1⟩ ∧
        cur.rows = m0.rows ∧ cur.cols = a.cols ∧
        cur.Holds h1 (chainVal m0.cols A0 ((x1 :: rest).take k)) ∧
        multiplyStep (m0 :: (x1 :: rest).map Prod.fst) (k + 1)
          (⟨some cur, if k = 0 then none else some cur, h1⟩ : MulState α) =
            .error .assertion) := by
  have hconv : (((rest.length + 2 : Nat) : Int) % 2 ^ 64).toNat = rest.length + 2 := by
    omega
  have key : ∀ k a b, (m0 :: (x1 :: rest).map Prod.fst)[k]? = some a →
      (m0 :: (x1 :: rest).map Prod.fst)[k + 1]? = some b → a.cols ≠ b.rows →
      (∀ i, i < k → ∀ a' b', (m0 :: (x1 :: rest).map Prod.fst)[i]? = some a' →
        (m0 :: (x1 :: rest).map Prod.fst)[i + 1]? = some b' → a'.cols = b'.rows) →
      ∃ cur h1,
        forN (k + 1) (multiplyStep (m0 :: (x1 :: rest).map Prod.fst))
          (⟨none, none, h⟩ : MulState α) =
            .ok ⟨some cur, if k = 0 then none else some cur, h1⟩ ∧
        cur.rows = m0.rows ∧ cur.cols = a.cols ∧
        cur.Holds h1 (chainVal m0.cols A0 ((x1 :: rest).take k)) ∧
        multiplyStep (m0 :: (x1 :: rest).map Prod.fst) (k + 1)
          (⟨some cur, if k = 0 then none else some cur, h1⟩ : MulState α) =
            .error .assertion ∧
        __multiply__matrix ((rest.length + 2 : Nat) : Int)
          (m0 :: (x1 :: rest).map Prod.fst) h = .error .assertion := by
    intro k a b ha hb hne hall
    have htk : ((x1 :: rest).map Prod.fst).take k = ((x1 :: rest).take k).map Prod.fst := by
      rw [List.map_take]
    have hpre := compatible_take _ m0 k hall
    have hlast := lastCols_take _ m0 a k ha
    rw [htk] at hpre hlast
    have hb' : ((x1 :: rest).map Prod.fst)[k]? = some b := by simpa using hb
    obtain ⟨cur, h1, hrun, -, hrows, hval, hloop, hstep, hall'⟩ :=
      multiply_stops h m0 A0 (x1 :: rest) k b h0 hst hg hpre hb' (by rw [hlast]; exact hne)
    have hk : k < ((x1 :: rest).map Prod.fst).length := (List.getElem?_eq_some.1 hb').1
    have hk' : k + 2 ≤ rest.length + 2 := by
      simp only [List.length_map, List.length_cons] at hk
      omega
    refine ⟨cur, h1, hloop, hrows, ?_, hval, hstep, ?_⟩
    · rw [(chainFold_shape _ _ _ _ _ hrun).2, hlast]
    · unfold __multiply__matrix
      rw [hconv, hall' _ hk']
      rfl
  refine ⟨⟨fun hfail => ?_, fun hex => ?_⟩, fun k a b ha hb hne hall => ?_⟩
  · by_contra hno
    have hc : Compatible m0.cols ((x1 :: rest).map Prod.fst) := by
      refine (compatible_adjacent _ m0).2 (fun i a b ha hb => ?_)
      by_contra hne
      exact hno ⟨i, a, b, ha, hb, hne⟩
    obtain ⟨dest, h', hrun, -⟩ := chainFold_run (x1 :: rest) h m0 A0 h0 hst hc hg
    have heq := multiply_eq_chainFold m0 x1.1 (rest.map Prod.fst) h (by simpa using hn)
      (by simpa using hc)
    simp only [List.length_map] at heq
    rw [List.map_cons, heq, ← List.map_cons, hrun] at hfail
    cases hfail
  · obtain ⟨i, hi⟩ := hex
    induction i using Nat.strong_induction_on with
    | _ i ih =>
      obtain ⟨a, b, ha, hb, hne⟩ := hi
      by_cases hall : ∀ j, j < i → ∀ a' b', (m0 :: (x1 :: rest).map Prod.fst)[j]? = some a' →
          (m0 :: (x1 :: rest).map Prod.fst)[j + 1]? = some b' → a'.cols = b'.rows
      · obtain ⟨cur, h1, -, -, -, -, -, hfail⟩ := key i a b ha hb hne hall
        exact hfail
      · push_neg at hall
        obtain ⟨j, hj, a', b', ha', hb', hne'⟩ := hall
        exact ih j hj ⟨a', b', ha', hb', hne'⟩
  · obtain ⟨cur, h1, hloop, hrows, hcols, hval, hstep, -⟩ := key k a b ha hb hne hall
    exact ⟨cur, h1, hloop, hrows, hcols, hval, hstep⟩

theorem multiply_fails_iff_witness :
    __multiply__matrix 3 [sq2 1, sq2 2, ⟨1, 2, 2, 3⟩] heap3 = .error .assertion :=
  (multiply_fails_iff heap3 (sq2 1) (rowMajor 2 [1, 2, 3, 4])
    (sq2 2, rowMajor 2 [5, 6, 7, 8]) [(⟨1, 2, 2, 3⟩, rowMajor 2 [9, 9])] (by decide)
    ⟨by decide, by unfold Matrix.Holds; decide⟩
    (by
      intro x hx
      simp only [List.mem_cons, List.mem_singleton, List.not_mem_nil, or_false] at hx
      rcases hx with rfl | rfl
      · exact ⟨by decide, by unfold Matrix.Holds; decide⟩
      · exact ⟨by decide, by unfold Matrix.Holds; decide⟩)
    (by
      intro x hx
      simp only [List.mem_cons, List.mem_singleton, List.not_mem_nil, or_false] at hx
      rcases hx with rfl | rfl
      · exact ⟨by decide, by decide⟩
      · exact ⟨by decide, by decide⟩)).1.2
    ⟨1, sq2 2, ⟨1, 2, 2, 3⟩, rfl, rfl, by decide⟩

/-- Claim C17, amended: for a generator whose draws lie between `0` and
`RAND_MAX`, `_random_float_` produces the quotient of the draw by
`RAND_MAX` (both converted to `float`), which lies in the closed interval
`[0, 1]` and is `1` for the draw `RAND_MAX`; and
`__init__random__matrix(rows, cols)` fills the elements from sequential draws
in row-major order: element `(r, c)` is the quotient of draw number
`r * cols + c` after the generator's position at the call, and the generator
has advanced by `rows * cols` draws.  What is used of the arithmetic: the
conversion from `int` is monotone and gives no negative value, and for the
divisor `R = (float) RAND_MAX` a quotient `x / R` is not negative when
`x` is not, is at most `1` when `x` is at most `R`, and `R / R = 1`. -/
theorem random_matrix_closed_interval [Zero α] [One α] [NatCast α] [Div α] [LE α]
    (h : Heap α) (RAND_MAX rows cols : Nat) (g : Rand)
    (hcast0 : ∀ n : Nat, (0 : α) ≤ (n : α))
    (hcast : ∀ a b : Nat, a ≤ b → (a : α) ≤ (b : α))
    (hdiv0 : ∀ x : α, 0 ≤ x → 0 ≤ x / (RAND_MAX : α))
    (hdiv1 : ∀ x : α, x ≤ (RAND_MAX : α) → x / (RAND_MAX : α) ≤ 1)
    (hself : (RAND_MAX : α) / (RAND_MAX : α) = 1)
    (hdraw : ∀ i, g.draws i ≤ RAND_MAX) (hg : h.Grants rows cols) :
    ((_random_float_ RAND_MAX g : α × Rand).1 = (g.draws g.used : α) / (RAND_MAX : α) ∧
      (_random_float_ RAND_MAX g : α × Rand).2 = ⟨g.draws, g.used + 1⟩ ∧
      0 ≤ (_random_float_ RAND_MAX g : α × Rand).1 ∧
      (_random_float_ RAND_MAX g : α × Rand).1 ≤ 1 ∧
      (g.draws g.used = RAND_MAX → (_random_float_ RAND_MAX g : α × Rand).1 = 1)) ∧
    ∃ m g' h', __init__random__matrix RAND_MAX rows cols g h = .ok (m, g', h') ∧
      m.rows = rows ∧ m.cols = cols ∧ g'.draws = g.draws ∧ g'.used = g.used + rows * cols ∧
      ∀ r, r < rows → ∀ c, c < cols → ∃ v : α, h'.elem m r c = some v ∧
        v = (g.draws (g.used + r * cols + c) : α) / (RAND_MAX : α) ∧ 0 ≤ v ∧ v ≤ 1 ∧
        (g.draws (g.used + r * cols + c) = RAND_MAX → v = 1) := by
  have hb : ∀ d : Nat, d ≤ RAND_MAX → 0 ≤ (d : α) / (RAND_MAX : α) ∧
      (d : α) / (RAND_MAX : α) ≤ 1 ∧ (d = RAND_MAX → (d : α) / (RAND_MAX : α) = 1) := by
    intro d hd
    refine ⟨hdiv0 _ (hcast0 d), hdiv1 _ (hcast d RAND_MAX hd), fun he => ?_⟩
    rw [he]
    exact hself
  obtain ⟨h', hrun, -, hval⟩ := random_run h RAND_MAX rows cols g hg
  refine ⟨⟨rfl, rfl, ?_, ?_, ?_⟩, _, _, h', hrun, rfl, rfl, rfl, rfl, ?_⟩
  · exact (hb _ (hdraw _)).1
  · exact (hb _ (hdraw _)).2.1
  · exact (hb _ (hdraw _)).2.2
  · intro r hr c hc
    exact ⟨_, hval r hr c hc, rfl, hb _ (hdraw _)⟩

theorem random_matrix_closed_interval_witness :
    ∃ m g' h', __init__random__matrix 4 2 2 randCycle heapQ = .ok (m, g', h') ∧
      m.rows = 2 ∧ m.cols = 2 ∧ g'.draws = randCycle.draws ∧ g'.used = randCycle.used + 2 * 2 ∧
      ∀ r, r < 2 → ∀ c, c < 2 → ∃ v : ℚ, h'.elem m r c = some v ∧
        v = (randCycle.draws (randCycle.used + r * 2 + c) : ℚ) / ((4 : Nat) : ℚ) ∧
        0 ≤ v ∧ v ≤ 1 ∧ (randCycle.draws (randCycle.used + r * 2 + c) = 4 → v = 1) :=
  (random_matrix_closed_interval heapQ 4 2 2 randCycle (fun n => Nat.cast_nonneg n)
    (fun a b hab => Nat.cast_le.2 hab)
    (fun x hx => div_nonneg hx (by norm_num))
    (fun x hx => (div_le_one (by norm_num)).2 hx)
    (by norm_num)
    (fun i => Nat.le_of_lt (Nat.mod_lt i (by decide))) ⟨by decide, by decide⟩).2

/-- Against C17 as written: the draw `RAND_MAX` is allowed, and for it
`_random_float_` produces `1`, which is not below `1`; a matrix filled from
such a draw has the element `1`. -/
theorem random_float_reaches_one :
    randTop.draws randTop.used ≤ 32767 ∧
    (_random_float_ 32767 randTop : ℚ × Rand).1 = 1 ∧
    ¬ (_random_float_ 32767 randTop : ℚ × Rand).1 < 1 ∧
    ∃ m g' h', __init__random__matrix 32767 1 1 randTop heapQ = .ok (m, g', h') ∧
      h'.elem m 0 0 = some 1 := by
  have h1 : (_random_float_ 32767 randTop : ℚ × Rand).1 = 1 := by
    show ((32767 : Nat) : ℚ) / ((32767 : Nat) : ℚ) = 1
    norm_num
  refine ⟨Nat.le_refl _, h1, by rw [h1]; exact lt_irrefl 1, ?_⟩
  obtain ⟨h', hrun, -, hval⟩ := random_run heapQ 32767 1 1 randTop ⟨by decide, by decide⟩
  refine ⟨_, _, h', hrun, ?_⟩
  rw [hval 0 (by decide) 0 (by decide)]
  show some (((32767 : Nat) : ℚ) / ((32767 : Nat) : ℚ)) = some 1
  norm_num

end MatrixH
